import Mathlib

/-!
Shallow embedding of the recipe-cookbook application (`src/app.py`) and proofs
about the claims of its specification.

Python strings are modelled as `List Char`.  Python's `str.strip()` is
modelled over the ASCII whitespace characters (the inputs of interest are
ASCII); `\d` of the regular expressions is modelled as the ASCII digits and
`\s` as the ASCII whitespace class, matching Python's behaviour on ASCII text.
-/

namespace CookbookApp

abbrev Str := List Char

/-- The ASCII whitespace characters recognised by Python's `str.strip()` and by
the regex class `\s`. -/
def isPySpace (c : Char) : Bool :=
  c = ' ' || c = '\t' || c = '\n' || c = '\r' || c = '\x0b' || c = '\x0c'

/-- Python `str.strip()`: drop whitespace from both ends. -/
def pyStrip (cs : Str) : Str :=
  ((cs.dropWhile isPySpace).reverse.dropWhile isPySpace).reverse

/-- `startsWithStr p cs` holds when `p` is an initial segment of `cs`
(Python `str.startswith`). -/
def startsWithStr (p cs : Str) : Bool := decide (cs.take p.length = p)

/--
The anchored regex match `^(\d+)\.\s+\1\.\s+` of `clean_step_numbering`
(src/app.py line 57), returning the captured digit run and the text after the
whole match.  Maximal-munch is complete here: backtracking a greedy `\d+` or
`\s+` can never produce a match that the maximal run misses, because the
character classes digit, `.` and whitespace are pairwise disjoint.
-/
def matchDup (cs : Str) : Option (Str × Str) :=
  if cs.takeWhile Char.isDigit = [] then none else
  match cs.dropWhile Char.isDigit with
  | '.' :: r2 =>
    if r2.takeWhile isPySpace = [] then none else
    if startsWithStr (cs.takeWhile Char.isDigit) (r2.dropWhile isPySpace) then
      match (r2.dropWhile isPySpace).drop (cs.takeWhile Char.isDigit).length with
      | '.' :: r4 =>
        if r4.takeWhile isPySpace = [] then none
        else some (cs.takeWhile Char.isDigit, r4.dropWhile isPySpace)
      | _ => none
    else none
  | _ => none

/--
The anchored regex match `^\d+\.\s*` of `strip_step_numbering`
(src/app.py line 63), returning the text after the match.
-/
def matchOrd (cs : Str) : Option Str :=
  if cs.takeWhile Char.isDigit = [] then none else
  match cs.dropWhile Char.isDigit with
  | '.' :: r2 => some (r2.dropWhile isPySpace)
  | _ => none

/-- `clean_step_numbering` (src/app.py lines 54-57): falsy input is returned
unchanged; otherwise the input is stripped and an anchored
`(\d+)\.\s+\1\.\s+` prefix is collapsed to `\1. `. -/
def clean_step_numbering (s : Str) : Str :=
  if s = [] then s else
    match matchDup (pyStrip s) with
    | some (d, rest) => d ++ '.' :: ' ' :: rest
    | none => pyStrip s

/-- `strip_step_numbering` (src/app.py lines 60-63): falsy input is returned
unchanged; otherwise the input is stripped and an anchored `\d+\.\s*` prefix
is removed. -/
def strip_step_numbering (s : Str) : Str :=
  if s = [] then s else
    match matchOrd (pyStrip s) with
    | some rest => rest
    | none => pyStrip s

/-! ## JSON values and `json.loads`

`JValue` models a Python value produced by `json.loads`: numbers keep their
lexed literal (no claim depends on numeric value identification), objects are
key/value lists in document order (Python dicts; duplicate keys are resolved
last-wins at lookup time).  The parser models CPython's `json.loads` on the
inputs of interest; its one modelling limit is that a `\uXXXX` escape denoting
a lone surrogate half is rejected rather than producing a surrogate char,
which Lean's `Char` cannot represent. -/

inductive JValue where
  | null
  | bool (b : Bool)
  | num (lit : Str)
  | str (s : Str)
  | arr (elems : List JValue)
  | obj (fields : List (Str × JValue))

/-- JSON inter-token whitespace accepted by `json.loads`. -/
def isJsonWs (c : Char) : Bool :=
  c = ' ' || c = '\t' || c = '\n' || c = '\r'

def skipWs (cs : Str) : Str := cs.dropWhile isJsonWs

def hexVal (c : Char) : Option Nat :=
  if '0' ≤ c ∧ c ≤ '9' then some (c.toNat - 48)
  else if 'a' ≤ c ∧ c ≤ 'f' then some (c.toNat - 87)
  else if 'A' ≤ c ∧ c ≤ 'F' then some (c.toNat - 55)
  else none

def escDecode (c : Char) : Option Char :=
  if c = '"' then some '"'
  else if c = '\\' then some '\\'
  else if c = '/' then some '/'
  else if c = 'b' then some '\x08'
  else if c = 'f' then some '\x0c'
  else if c = 'n' then some '\n'
  else if c = 'r' then some '\r'
  else if c = 't' then some '\t'
  else none

/-- Decoding of the four hex digits of a `\uXXXX` escape into a character:
surrogate halves are rejected (the modelling limit noted above). -/
def decodeHex4 (h1 h2 h3 h4 : Char) : Option Char :=
  match hexVal h1, hexVal h2, hexVal h3, hexVal h4 with
  | some a, some b, some c2, some d =>
    if h : a * 4096 + b * 256 + c2 * 16 + d < 55296 then
      some (Char.ofNatAux (a * 4096 + b * 256 + c2 * 16 + d) (by left; exact h))
    else if h2 : 57343 < a * 4096 + b * 256 + c2 * 16 + d ∧
        a * 4096 + b * 256 + c2 * 16 + d < 1114112 then
      some (Char.ofNatAux (a * 4096 + b * 256 + c2 * 16 + d) (by right; exact h2))
    else none
  | _, _, _, _ => none

/-- Body of a JSON string literal, begun after the opening quote.  Raw control
characters are rejected (CPython's default `strict=True`). -/
def parseStringBody : Str → Option (Str × Str)
  | [] => none
  | c :: cs =>
    if c = '"' then some ([], cs)
    else if c = '\\' then
      match cs with
      | [] => none
      | e :: cs' =>
        if e = 'u' then
          match cs' with
          | h1 :: h2 :: h3 :: h4 :: cs'' =>
            (match decodeHex4 h1 h2 h3 h4 with
             | some ch => (parseStringBody cs'').map (fun r => (ch :: r.1, r.2))
             | none => none)
          | _ => none
        else
          match escDecode e with
          | some d => (parseStringBody cs').map (fun r => (d :: r.1, r.2))
          | none => none
    else if c.toNat < 32 then none
    else (parseStringBody cs).map (fun r => (c :: r.1, r.2))

/-- Unsigned integer part of a JSON number: `0` or a nonzero digit run
(leading zeros are not part of the token, as in CPython's `NUMBER_RE`). -/
def lexUIntPart : Str → Option (Str × Str)
  | '0' :: cs => some (['0'], cs)
  | c :: cs =>
    if c.isDigit then some ((c :: cs).takeWhile Char.isDigit, (c :: cs).dropWhile Char.isDigit)
    else none
  | [] => none

/-- Optional fraction part `(\.\d+)?`. -/
def lexFracPart (cs : Str) : Str × Str :=
  match cs with
  | '.' :: rest =>
    let ds := rest.takeWhile Char.isDigit
    if ds = [] then ([], cs) else ('.' :: ds, rest.dropWhile Char.isDigit)
  | _ => ([], cs)

/-- Optional exponent part `([eE][-+]?\d+)?`. -/
def lexExpPart (cs : Str) : Str × Str :=
  match cs with
  | e :: rest =>
    if e = 'e' ∨ e = 'E' then
      match rest with
      | s :: rest2 =>
        if s = '+' ∨ s = '-' then
          let ds := rest2.takeWhile Char.isDigit
          if ds = [] then ([], cs) else (e :: s :: ds, rest2.dropWhile Char.isDigit)
        else
          let ds := rest.takeWhile Char.isDigit
          if ds = [] then ([], cs) else (e :: ds, rest.dropWhile Char.isDigit)
      | [] => ([], cs)
    else ([], cs)
  | [] => ([], cs)

def lexNumber (cs : Str) : Option (Str × Str) :=
  match cs with
  | '-' :: rest =>
    match lexUIntPart rest with
    | some (i, r) =>
      let fr := lexFracPart r
      let ex := lexExpPart fr.2
      some ('-' :: i ++ fr.1 ++ ex.1, ex.2)
    | none => none
  | _ =>
    match lexUIntPart cs with
    | some (i, r) =>
      let fr := lexFracPart r
      let ex := lexExpPart fr.2
      some (i ++ fr.1 ++ ex.1, ex.2)
    | none => none

mutual

/-- One JSON value (with leading whitespace), CPython `json.loads` grammar
including the `NaN`/`Infinity`/`-Infinity` extensions.  The fuel argument only
bounds recursion depth; `loads` supplies more fuel than any input can use. -/
def parseVal : Nat → Str → Option (JValue × Str)
  | 0, _ => none
  | f+1, cs =>
    match skipWs cs with
    | '{' :: rest =>
      (match skipWs rest with
       | '}' :: r2 => some (.obj [], r2)
       | _ => (parseMembers f rest).map (fun r => (.obj r.1, r.2)))
    | '[' :: rest =>
      (match skipWs rest with
       | ']' :: r2 => some (.arr [], r2)
       | _ => (parseElems f rest).map (fun r => (.arr r.1, r.2)))
    | '"' :: rest => (parseStringBody rest).map (fun r => (.str r.1, r.2))
    | 't' :: 'r' :: 'u' :: 'e' :: rest => some (.bool true, rest)
    | 'f' :: 'a' :: 'l' :: 's' :: 'e' :: rest => some (.bool false, rest)
    | 'n' :: 'u' :: 'l' :: 'l' :: rest => some (.null, rest)
    | 'N' :: 'a' :: 'N' :: rest => some (.num ("NaN".data), rest)
    | 'I' :: 'n' :: 'f' :: 'i' :: 'n' :: 'i' :: 't' :: 'y' :: rest =>
      some (.num ("Infinity".data), rest)
    | '-' :: 'I' :: 'n' :: 'f' :: 'i' :: 'n' :: 'i' :: 't' :: 'y' :: rest =>
      some (.num ("-Infinity".data), rest)
    | cs' => (lexNumber cs').map (fun r => (.num r.1, r.2))

/-- Members of a JSON object after `{`, at least one, through the closing `}`. -/
def parseMembers : Nat → Str → Option (List (Str × JValue) × Str)
  | 0, _ => none
  | f+1, cs =>
    match skipWs cs with
    | '"' :: r1 =>
      (match parseStringBody r1 with
       | none => none
       | some (key, r2) =>
         match skipWs r2 with
         | ':' :: r3 =>
           (match parseVal f r3 with
            | none => none
            | some (v, r4) =>
              match skipWs r4 with
              | ',' :: r5 => (parseMembers f r5).map (fun r => ((key, v) :: r.1, r.2))
              | '}' :: r5 => some ([(key, v)], r5)
              | _ => none)
         | _ => none)
    | _ => none

/-- Elements of a JSON array after `[`, at least one, through the closing `]`. -/
def parseElems : Nat → Str → Option (List JValue × Str)
  | 0, _ => none
  | f+1, cs =>
    match parseVal f cs with
    | none => none
    | some (v, r1) =>
      match skipWs r1 with
      | ',' :: r2 => (parseElems f r2).map (fun r => (v :: r.1, r.2))
      | ']' :: r2 => some ([v], r2)
      | _ => none

end

/-- `json.loads`: parse one value and require only whitespace to remain. -/
def loads (cs : Str) : Option JValue :=
  match parseVal (cs.length + 1) cs with
  | some (v, rest) => if skipWs rest = [] then some v else none
  | none => none

/-! ## `json.dumps(..., indent=4, ensure_ascii=False)` for the backup export -/

def hexDigit (n : Nat) : Char :=
  if n < 10 then Char.ofNat (48 + n) else Char.ofNat (87 + n)

/-- Escaping of one character by CPython's json encoder with
`ensure_ascii=False`: escape the quote, the backslash and control characters,
pass everything else through. -/
def escChar (c : Char) : Str :=
  if c = '"' then ['\\', '"']
  else if c = '\\' then ['\\', '\\']
  else if c = '\n' then ['\\', 'n']
  else if c = '\r' then ['\\', 'r']
  else if c = '\t' then ['\\', 't']
  else if c = '\x08' then ['\\', 'b']
  else if c = '\x0c' then ['\\', 'f']
  else if c.toNat < 32 then ['\\', 'u', '0', '0', hexDigit (c.toNat / 16), hexDigit (c.toNat % 16)]
  else [c]

def escapeStr (s : Str) : Str := (s.map escChar).flatten

/-- A JSON string literal for `s`. -/
def renderStrJ (s : Str) : Str := '"' :: escapeStr s ++ ['"']

/-- Newline followed by the `indent=4` padding of nesting level `n`. -/
def nlPad (n : Nat) : Str := '\n' :: List.replicate (4 * n) ' '

def sepList (sep : Str) : List Str → Str
  | [] => []
  | [x] => x
  | x :: y :: xs => x ++ sep ++ sepList sep (y :: xs)

/-- An indented JSON array whose already-rendered items sit at level
`lvl + 1`; the empty array renders as `[]`, as `json.dumps` does. -/
def renderArrAt (lvl : Nat) (items : List Str) : Str :=
  match items with
  | [] => ['[', ']']
  | _ =>
    '[' :: nlPad (lvl + 1) ++ sepList (',' :: nlPad (lvl + 1)) items
      ++ nlPad lvl ++ [']']

/-! ## `parse_recipe_json` (src/app.py lines 16-51) -/

/-- The backquote character, `` ` ``. -/
def bq : Char := Char.ofNat 96

/-- The fence marker of three backquotes. -/
def fence3 : Str := [bq, bq, bq]

/-- The tagged fence opener checked first by the code. -/
def fenceJson : Str := [bq, bq, bq, 'j', 's', 'o', 'n']

/-- `text.split(givenFence)[0]`: the part before the first fence marker, or
all of `text` when there is none. -/
def takeUntilFence : Str → Str
  | [] => []
  | c :: cs => if startsWithStr fence3 (c :: cs) then [] else c :: takeUntilFence cs

/-- The markdown-fence stripping stage (src/app.py lines 17-21), applied to
the already-stripped response text. -/
def fenceStrip (text : Str) : Str :=
  if startsWithStr fenceJson text then pyStrip (takeUntilFence (text.drop 7))
  else if startsWithStr fence3 text then pyStrip (takeUntilFence (text.drop 3))
  else text

def idxOf (c : Char) : Str → Option Nat
  | [] => none
  | a :: as => if a = c then some 0 else (idxOf c as).map (· + 1)

def lastIdxOf (c : Char) (cs : Str) : Option Nat :=
  (idxOf c cs.reverse).map (fun i => cs.length - 1 - i)

/-- The brace-counting loop (src/app.py lines 25-34): starting at the first
`{`, return `i + 1` for the position `i` where the count returns to zero, or
`none` when it never does. -/
def braceScan (count : Int) (i : Nat) : Str → Option Nat
  | [] => none
  | c :: cs =>
    if c = '{' then braceScan (count + 1) (i + 1) cs
    else if c = '}' then
      (if count - 1 = 0 then some (i + 1) else braceScan (count - 1) (i + 1) cs)
    else braceScan count (i + 1) cs

/-- Python slice `cs[a:b]` for nonnegative bounds. -/
def pySlice (cs : Str) (a b : Nat) : Str := (cs.take b).drop a

/-- The `end` boundary: the matching close brace, else `text.rfind('\x7d') + 1`
(which is `0` when there is no `\x7d` at all, `rfind` returning `-1`). -/
def braceEndIdx (text : Str) (start : Nat) : Nat :=
  match braceScan 0 start (text.drop start) with
  | some e => e
  | none =>
    match lastIdxOf '}' text with
    | some j => j + 1
    | none => 0

/-- The brace-extracted candidate substring `json_text`, or `none` when the
text has no `{` (the code returns `None` then, src/app.py lines 22-24). -/
def jsonCandidate (text : Str) : Option Str :=
  match idxOf '{' text with
  | none => none
  | some start => some (pySlice text start (braceEndIdx text start))

/-- Python `str.replace` for a two-character pattern, replaced by one
character: left-to-right, non-overlapping. -/
def replace2 (p1 p2 r1 : Char) : Str → Str
  | [] => []
  | [a] => [a]
  | a :: b :: rest =>
    if a = p1 ∧ b = p2 then r1 :: replace2 p1 p2 r1 rest
    else a :: replace2 p1 p2 r1 (b :: rest)

/-- The lenient repair `json_text.replace(',\x7d', '\x7d').replace(',]', ']')`
(src/app.py line 44). -/
def commaRepair (cs : Str) : Str := replace2 ',' ']' ']' (replace2 ',' '}' '}' cs)

/-- Python truthiness of a JSON-derived value. -/
def jTruthy : JValue → Bool
  | .null => false
  | .bool b => b
  | .num lit =>
    ((lit.takeWhile (fun c => c ≠ 'e' ∧ c ≠ 'E')).filter Char.isDigit).any (· ≠ '0')
  | .str s => !s.isEmpty
  | .arr xs => !xs.isEmpty
  | .obj fs => !fs.isEmpty

/-- Dict-style lookup: Python builds dicts from JSON objects, so a duplicated
key holds the value written last. -/
def jlookup (fields : List (Str × JValue)) (k : Str) : Option JValue :=
  match fields with
  | [] => none
  | (k', v) :: rest =>
    match jlookup rest k with
    | some w => some w
    | none => if k' = k then some v else none

def jupdate (fields : List (Str × JValue)) (k : Str) (v : JValue) :
    List (Str × JValue) :=
  fields.map (fun kv => if kv.1 = k then (kv.1, v) else kv)

def containsSub (cs pat : Str) : Bool :=
  match cs with
  | [] => decide (pat = [])
  | _ :: cs' => startsWithStr pat cs || containsSub cs' pat

/-- `clean_step_numbering` applied to one element of the parsed `steps` value,
as the comprehension `[clean_step_numbering(s) for s in recipe['steps']]`
does: a falsy value is returned unchanged by the early return; a truthy
non-string raises (`.strip()` on it), modelled as `none`. -/
def cleanStepElem (v : JValue) : Option JValue :=
  match v with
  | .str s => some (.str (clean_step_numbering s))
  | w => if jTruthy w then none else some w

/-- `recipe['steps']` rewritten by the comprehension.  Iterating a string
yields its characters, iterating a dict yields its keys; iterating a number,
boolean or `None` raises, modelled as `none`. -/
def cleanStepsValue (v : JValue) : Option JValue :=
  match v with
  | .arr xs => (xs.mapM cleanStepElem).map .arr
  | .str s => some (.arr (s.map (fun c => .str (clean_step_numbering [c]))))
  | .obj fs => some (.arr (fs.map (fun kv => .str (clean_step_numbering kv.1))))
  | _ => none

/-- The post-processing `if 'steps' in recipe: recipe['steps'] = [...]`
(src/app.py lines 40-41 and 47-48).  `none` models an uncaught exception:
`in` on a number/boolean/`None`, indexing a list or string by `'steps'`, or a
raising comprehension. -/
def cleanStepsPost (recipe : JValue) : Option JValue :=
  match recipe with
  | .obj fields =>
    (match jlookup fields ("steps".data) with
     | none => some recipe
     | some stepsVal =>
       (cleanStepsValue stepsVal).map
         (fun newSteps => .obj (jupdate fields ("steps".data) newSteps)))
  | .arr elems =>
    if elems.any (fun v => match v with | .str s => decide (s = "steps".data) | _ => false)
    then none else some recipe
  | .str s => if containsSub s ("steps".data) then none else some recipe
  | _ => none

/--
`parse_recipe_json` (src/app.py lines 16-51).  The result distinguishes the
three ways the Python function can finish: `.ok (some r)` returns a record,
`.ok none` returns `None`, and `.error ()` is an exception escaping the
function (possible only in the strict branch, whose `except` clause catches
`json.JSONDecodeError` alone, while the lenient branch has a bare `except`).
-/
def parse_recipe_json (s : Str) : Except Unit (Option JValue) :=
  match jsonCandidate (fenceStrip (pyStrip s)) with
  | none => .ok none
  | some json_text =>
    match loads json_text with
    | some recipe =>
      (match cleanStepsPost recipe with
       | some r => .ok (some r)
       | none => .error ())
    | none =>
      match loads (commaRepair json_text) with
      | some recipe =>
        (match cleanStepsPost recipe with
         | some r => .ok (some r)
         | none => .ok none)
      | none => .ok none

/-! ## Schema extractor field coercion (src/app.py lines 90-94) -/

/-- Python `repr` of a plain string, as it appears inside a container's
`str()` rendering. -/
def pyQuote (s : Str) : Str := '\'' :: s ++ ['\'']

mutual

/-- Python `repr()` of a JSON-derived value (approximate in string escaping,
which no claim exercises). -/
def pyRepr : JValue → Str
  | .str s => pyQuote s
  | .null => "None".data
  | .bool true => "True".data
  | .bool false => "False".data
  | .num lit => if lit = ('-' :: '0' :: []) then ['0'] else lit
  | .arr xs => '[' :: sepList (',' :: ' ' :: []) (pyReprList xs) ++ [']']
  | .obj fs => '{' :: sepList (',' :: ' ' :: []) (pyReprFields fs) ++ ['}']

/-- The elements of a list as rendered inside its `repr`. -/
def pyReprList : List JValue → List Str
  | [] => []
  | v :: vs => pyRepr v :: pyReprList vs

/-- The entries of a dict as rendered inside its `repr`. -/
def pyReprFields : List (Str × JValue) → List Str
  | [] => []
  | kv :: rest => (pyQuote kv.1 ++ ':' :: ' ' :: pyRepr kv.2) :: pyReprFields rest

end

/-- Python `str()`: identity on strings, `repr` rendering otherwise. -/
def pyStr : JValue → Str
  | .str s => s
  | v => pyRepr v

/-- The ingredient coercion of `extract_schema_recipe` (src/app.py lines
90-94): take the declared `recipeIngredient` value (default `[]`), replace a
non-list by `[]`, then `[str(ing).strip() for ing in ingredients if ing]`. -/
def ingredientsOf (rec : List (Str × JValue)) : List Str :=
  match jlookup rec ("recipeIngredient".data) with
  | some (.arr xs) => (xs.filter jTruthy).map (fun v => pyStrip (pyStr v))
  | _ => []

/--
Modelled from the spec: "`ingredients` ← declared ingredient list field,
coerced to a list of trimmed strings, non-string/empty entries dropped."
This is the spec's description of the coercion, for comparison with
`ingredientsOf` above, which follows the code.
-/
def specIngredientsOf (rec : List (Str × JValue)) : List Str :=
  match jlookup rec ("recipeIngredient".data) with
  | some (.arr xs) =>
    (xs.filterMap (fun v => match v with | .str s => some (pyStrip s) | _ => none)).filter
      (fun s => decide (s ≠ []))
  | _ => []

/-! ## Recipe collection (session state, backup, dedupe, sort) -/

structure Recipe where
  title : Str
  ingredients : List Str
  steps : List Str

/-- Python `str.lower` (modelled on ASCII, as elsewhere). -/
def lowerStr (s : Str) : Str := s.map Char.toLower

/-- The dedupe key `r['title'].lower()`. -/
def keyOf (r : Recipe) : Str := lowerStr r.title

/-- The dedupe-and-add loop (src/app.py lines 404-410): the key set `titles`
is seeded from the current collection; each candidate whose key is unseen is
appended and its key recorded, every other candidate is skipped. -/
def addLoop (titles : List Str) (recipes : List Recipe) (added : Nat) :
    List Recipe → List Recipe × Nat
  | [] => (recipes, added)
  | r :: rest =>
    if keyOf r ∈ titles then addLoop titles recipes added rest
    else addLoop (keyOf r :: titles) (recipes ++ [r]) (added + 1) rest

def addBatch (recipes : List Recipe) (newRecipes : List Recipe) :
    List Recipe × Nat :=
  addLoop (recipes.map keyOf) recipes 0 newRecipes

/-- Lexicographic comparison of the sort keys (Python `<=` on strings,
by code point). -/
def strLe : Str → Str → Bool
  | [], _ => true
  | _ :: _, [] => false
  | a :: as, b :: bs =>
    if a.toNat < b.toNat then true
    else if b.toNat < a.toNat then false
    else strLe as bs

/-- `st.session_state.recipes.sort(key=lambda r: r.get('title', '').lower())`
(src/app.py line 414): a stable sort on the case-insensitive title. -/
def sortByTitle (recipes : List Recipe) : List Recipe :=
  recipes.mergeSort (fun a b => strLe (keyOf a) (keyOf b))

/-- The whole add-batch action (src/app.py lines 403-415): dedupe-and-add,
then sort the collection when at least one record was added. -/
def addAndSort (recipes : List Recipe) (newRecipes : List Recipe) :
    List Recipe × Nat :=
  if (addBatch recipes newRecipes).2 > 0 then
    (sortByTitle (addBatch recipes newRecipes).1, (addBatch recipes newRecipes).2)
  else addBatch recipes newRecipes

/-- The dict a session recipe denotes, with its three fields in their
construction order. -/
def encodeRecipe (r : Recipe) : JValue :=
  .obj [("title".data, .str r.title),
        ("ingredients".data, .arr (r.ingredients.map .str)),
        ("steps".data, .arr (r.steps.map .str))]

def encodeRecipes (rs : List Recipe) : JValue := .arr (rs.map encodeRecipe)

/-- A serialized array of strings with configurable inter-token layout: `wA`
follows the opening bracket and each comma, `wB` precedes the closing bracket;
the empty array is `[]`.  `json.dumps(..., indent=4)` and the compact layouts
below are instances. -/
def renderStrArrW (wA wB : Str) : List Str → Str
  | [] => ['[', ']']
  | xs => '[' :: wA ++ sepList (',' :: wA) (xs.map renderStrJ) ++ wB ++ [']']

/-- A serialized recipe object with configurable layout: `wA` follows the
opening brace and each comma, `wC` follows each key's colon, `wA2`/`wB2` lay
out the two inner arrays, and `wE` precedes the closing brace (`json.dumps`
puts whitespace there; a trailing comma there is the malformation of
interest). -/
def renderRecipeW (wA wC wA2 wB2 wE : Str) (r : Recipe) : Str :=
  '{' :: wA ++ renderStrJ ("title".data) ++ ':' :: wC ++ renderStrJ r.title
    ++ ',' :: wA ++ renderStrJ ("ingredients".data) ++ ':' :: wC ++
      renderStrArrW wA2 wB2 r.ingredients
    ++ ',' :: wA ++ renderStrJ ("steps".data) ++ ':' :: wC ++
      renderStrArrW wA2 wB2 r.steps
    ++ wE ++ ['}']

/-- The backup download payload
`json.dumps(st.session_state.recipes, indent=4, ensure_ascii=False)`
(src/app.py line 436), spelled out for a recipe record at nesting level
`lvl`. -/
def renderRecipeAt (lvl : Nat) (r : Recipe) : Str :=
  renderRecipeW (nlPad (lvl + 1)) [' '] (nlPad (lvl + 2)) (nlPad (lvl + 1))
    (nlPad lvl) r

def export_backup (rs : List Recipe) : Str :=
  renderArrAt 0 (rs.map (renderRecipeAt 1))

/-- The backup upload handler (src/app.py lines 446-452): on a successful
`json.load` the parsed value replaces the collection wholesale and success is
reported; on failure the prior collection is kept and an error is shown.  The
session collection is carried as the `JValue` it holds. -/
def upload_backup (current : JValue) (fileText : Str) : JValue × Bool :=
  match loads fileText with
  | some imported => (imported, true)
  | none => (current, false)

/-- A compact serialization of a recipe object (no inter-token whitespace). -/
def renderRecipeC (r : Recipe) : Str := renderRecipeW [] [] [] [] [] r

/-- The same compact serialization with one trailing comma immediately before
the closing brace. -/
def renderRecipeTC (r : Recipe) : Str := renderRecipeW [] [] [] [] [','] r

/-- The record a successful parse of a recipe object returns: the parsed dict
with each step passed through `clean_step_numbering`. -/
def cleanRecipe (r : Recipe) : JValue :=
  .obj [(("title".data), .str r.title),
        (("ingredients".data), .arr (r.ingredients.map .str)),
        (("steps".data), .arr (r.steps.map (fun s => .str (clean_step_numbering s))))]

/-- Adjacent-pair occurrence test: does `p1` immediately followed by `p2`
occur anywhere in the text? -/
def containsPair (p1 p2 : Char) : Str → Bool
  | a :: b :: rest => (decide (a = p1) && decide (b = p2)) || containsPair p1 p2 (b :: rest)
  | _ => false

/--
Modelled from the spec: the regex-salvage title extraction the spec's stage 5
describes — "extract a quoted value following a `\x22title\x22` key
(case-insensitive)" — which has no counterpart in `parse_recipe_json`
(src/app.py lines 16-51 contain no pattern-matching fallback).  The matcher
scans for a case-insensitive `\x22title\x22` key and captures the quoted
value after the colon.
-/
def salvageValueAfterKey (cs : Str) : Option Str :=
  match skipWs cs with
  | ':' :: r1 =>
    (match skipWs r1 with
     | '"' :: r2 =>
       if (r2.takeWhile (fun c => decide (c ≠ '"'))).length < r2.length then
         some (r2.takeWhile (fun c => decide (c ≠ '"')))
       else none
     | _ => none)
  | _ => none

def specSalvageTitle : Str → Option Str
  | [] => none
  | c :: cs =>
    if startsWithStr ("\"title\"".data) (lowerStr (c :: cs)) then
      salvageValueAfterKey ((c :: cs).drop 7)
    else specSalvageTitle cs

/-- A fenced code block around `t`: the opening fence carries the tag
(possibly empty), then a newline, the content, a newline and the closing
fence. -/
def fenceWrap (tag : Str) (t : Str) : Str :=
  fence3 ++ tag ++ '\n' :: (t ++ '\n' :: fence3)

/-- Discriminates a parse outcome that returned a record. -/
def isOkSome : Except Unit (Option JValue) → Bool
  | .ok (some _) => true
  | _ => false

/-- The accepted sublist of a candidate batch: candidates whose key is not in
`seen`, first occurrence per key. -/
def keepNew (seen : List Str) : List Recipe → List Recipe
  | [] => []
  | c :: cs =>
    if keyOf c ∈ seen then keepNew seen cs
    else c :: keepNew (keyOf c :: seen) cs

/-- Fuel ample for parsing one serialized recipe object. -/
def recipeFuel (r : Recipe) : Nat :=
  r.ingredients.length + r.steps.length + 9

/-- Fuel ample for parsing a serialized list of recipe objects. -/
def batchFuel : List Recipe → Nat
  | [] => 0
  | r :: rs => recipeFuel r + batchFuel rs

/-! ## Basic lemmas about stripping and the prefix matchers -/

theorem pyStrip_eq_rdrop (cs : Str) :
    pyStrip cs = List.rdropWhile isPySpace (cs.dropWhile isPySpace) := rfl

theorem head?_dropWhile_false (p : Char → Bool) (l : Str) {c : Char}
    (h : (l.dropWhile p).head? = some c) : p c = false := by
  induction l with
  | nil => simp [List.dropWhile] at h
  | cons a t ih =>
    rw [List.dropWhile_cons] at h
    split at h
    · exact ih h
    · simp only [List.head?_cons, Option.some.injEq] at h
      subst h
      simpa using ‹¬ p a = true›

theorem getLast?_dropWhile_false (p : Char → Bool) (l : Str) {c : Char}
    (h : (List.rdropWhile p l).getLast? = some c) : p c = false := by
  rw [List.rdropWhile, List.getLast?_reverse] at h
  exact head?_dropWhile_false p l.reverse h

theorem getLast?_append_right {l t : Str} {c : Char} (h : t.getLast? = some c) :
    (l ++ t).getLast? = some c := by
  cases t with
  | nil => simp at h
  | cons a r => rw [List.getLast?_append_cons]; exact h

theorem head?_dropWhile_getLast? (p : Char → Bool) (l : Str) {c : Char}
    (h : (l.dropWhile p).getLast? = some c) : l.getLast? = some c := by
  obtain ⟨t, ht⟩ := (List.dropWhile_suffix p : List.dropWhile p l <:+ l)
  rw [← ht]
  exact getLast?_append_right h

theorem pyStrip_getLast?_false {cs : Str} {c : Char}
    (h : (pyStrip cs).getLast? = some c) : isPySpace c = false := by
  rw [pyStrip_eq_rdrop] at h
  exact getLast?_dropWhile_false _ _ h

theorem pyStrip_head?_false {cs : Str} {c : Char}
    (h : (pyStrip cs).head? = some c) : isPySpace c = false := by
  rw [pyStrip_eq_rdrop, List.rdropWhile, List.head?_reverse] at h
  have h2 := head?_dropWhile_getLast? isPySpace (cs.dropWhile isPySpace).reverse h
  rw [List.getLast?_reverse] at h2
  exact head?_dropWhile_false _ _ h2

theorem pyStrip_eq_self {cs : Str}
    (h1 : ∀ c, cs.head? = some c → isPySpace c = false)
    (h2 : ∀ c, cs.getLast? = some c → isPySpace c = false) : pyStrip cs = cs := by
  rw [pyStrip_eq_rdrop]
  have hd : cs.dropWhile isPySpace = cs := by
    cases cs with
    | nil => rfl
    | cons a t =>
      have := h1 a rfl
      simp [List.dropWhile_cons, this]
  rw [hd, List.rdropWhile_eq_self_iff]
  intro hl hp
  have := h2 (cs.getLast hl) (List.getLast?_eq_getLast cs hl)
  rw [this] at hp
  exact absurd hp (by simp)

theorem pyStrip_idem (cs : Str) : pyStrip (pyStrip cs) = pyStrip cs :=
  pyStrip_eq_self (fun c h => pyStrip_head?_false h) (fun c h => pyStrip_getLast?_false h)

theorem matchOrd_some {cs rest : Str} (h : matchOrd cs = some rest) :
    ∃ d w, cs = d ++ '.' :: (w ++ rest) ∧ d ≠ [] ∧ (∀ c ∈ d, c.isDigit) ∧
      (∀ c ∈ w, isPySpace c) ∧
      (∀ c, rest.head? = some c → isPySpace c = false) := by
  unfold matchOrd at h
  split at h
  · cases h
  · rename_i hd
    split at h
    · rename_i r2 heq
      simp only [Option.some.injEq] at h
      refine ⟨cs.takeWhile Char.isDigit, r2.takeWhile isPySpace, ?_, hd,
        fun c hc => List.mem_takeWhile_imp hc,
        fun c hc => List.mem_takeWhile_imp hc, ?_⟩
      · rw [← h, List.takeWhile_append_dropWhile, ← heq,
          List.takeWhile_append_dropWhile]
      · intro c hc
        rw [← h] at hc
        exact head?_dropWhile_false _ _ hc
    · cases h

theorem matchDup_some {cs : Str} {d rest : Str} (h : matchDup cs = some (d, rest)) :
    ∃ w1 w2, cs = d ++ '.' :: (w1 ++ (d ++ '.' :: (w2 ++ rest))) ∧
      d ≠ [] ∧ w1 ≠ [] ∧ w2 ≠ [] ∧ (∀ c ∈ d, c.isDigit) ∧
      (∀ c ∈ w1, isPySpace c) ∧ (∀ c ∈ w2, isPySpace c) ∧
      (∀ c, rest.head? = some c → isPySpace c = false) := by
  unfold matchDup at h
  split at h
  · cases h
  rename_i hd
  split at h
  case h_2 => cases h
  rename_i r2 heq
  split at h
  · cases h
  rename_i hw1
  split at h
  case isFalse => cases h
  rename_i hsw
  split at h
  case h_2 => cases h
  rename_i r4 heq2
  split at h
  · cases h
  rename_i hw2
  simp only [Option.some.injEq, Prod.mk.injEq] at h
  obtain ⟨hdd, hrest⟩ := h
  have htake : (r2.dropWhile isPySpace).take (cs.takeWhile Char.isDigit).length
      = cs.takeWhile Char.isDigit := of_decide_eq_true hsw
  subst hdd
  refine ⟨r2.takeWhile isPySpace, r4.takeWhile isPySpace, ?_, hd, hw1, hw2,
    fun c hc => List.mem_takeWhile_imp hc,
    fun c hc => List.mem_takeWhile_imp hc,
    fun c hc => List.mem_takeWhile_imp hc, ?_⟩
  · conv_lhs => rw [← List.takeWhile_append_dropWhile Char.isDigit cs]
    rw [heq]
    congr 1
    congr 1
    conv_lhs => rw [← List.takeWhile_append_dropWhile isPySpace r2]
    congr 1
    conv_lhs =>
      rw [← List.take_append_drop (cs.takeWhile Char.isDigit).length
        (r2.dropWhile isPySpace)]
    rw [htake, heq2]
    congr 1
    congr 1
    conv_lhs => rw [← List.takeWhile_append_dropWhile isPySpace r4]
    rw [hrest]
  · intro c hc
    rw [← hrest] at hc
    exact head?_dropWhile_false _ _ hc

theorem isPySpace_eq_false_of_isDigit {c : Char} (h : c.isDigit = true) :
    isPySpace c = false := by
  unfold isPySpace
  by_contra hx
  rw [Bool.not_eq_false, Bool.or_eq_true, Bool.or_eq_true, Bool.or_eq_true,
    Bool.or_eq_true, Bool.or_eq_true] at hx
  rcases hx with ((((h1 | h1) | h1) | h1) | h1) | h1 <;>
    (rw [decide_eq_true_iff] at h1; subst h1; simp [Char.isDigit] at h)

theorem getLast?_mem_of_ne_nil {l : Str} (hl : l ≠ []) :
    ∃ c, l.getLast? = some c ∧ c ∈ l :=
  ⟨l.getLast hl, List.getLast?_eq_getLast l hl, List.getLast_mem hl⟩

/-- The repaired line is already stripped, so a second application strips
nothing further. -/
theorem clean_pyStrip_fix (s : Str) :
    pyStrip (clean_step_numbering s) = clean_step_numbering s := by
  unfold clean_step_numbering
  split
  · rename_i hs; rw [hs]; rfl
  split
  case h_2 => exact pyStrip_idem s
  rename_i d rest hm
  obtain ⟨w1, w2, hcs, hd, hw1, hw2, hdig, hws1, hws2, hrh⟩ := matchDup_some hm
  apply pyStrip_eq_self
  · intro c hc
    cases d with
    | nil => exact absurd rfl hd
    | cons a t =>
      simp only [List.cons_append, List.head?_cons, Option.some.injEq] at hc
      rw [← hc]
      exact isPySpace_eq_false_of_isDigit (hdig a (by simp))
  · intro c hc
    cases rest with
    | nil =>
      obtain ⟨e, he, hem⟩ := getLast?_mem_of_ne_nil hw2
      have hlast : (pyStrip s).getLast? = some e := by
        rw [hcs]
        rw [show d ++ '.' :: (w1 ++ (d ++ '.' :: (w2 ++ []))) =
            (d ++ '.' :: (w1 ++ (d ++ ['.']))) ++ w2 by simp]
        exact getLast?_append_right he
      have hfalse := pyStrip_getLast?_false hlast
      rw [hws2 e hem] at hfalse
      cases hfalse
    | cons b u =>
      have hrne : (b :: u : Str) ≠ [] := by simp
      have h1 : (d ++ '.' :: ' ' :: b :: u).getLast? = (b :: u).getLast? := by
        obtain ⟨e, he, _⟩ := getLast?_mem_of_ne_nil hrne
        rw [show d ++ '.' :: ' ' :: b :: u = (d ++ ['.', ' ']) ++ (b :: u) by simp]
        rw [getLast?_append_right he, he]
      rw [h1] at hc
      apply @pyStrip_getLast?_false s c
      rw [hcs]
      rw [show d ++ '.' :: (w1 ++ (d ++ '.' :: (w2 ++ b :: u))) =
          (d ++ '.' :: (w1 ++ (d ++ '.' :: w2))) ++ (b :: u) by simp]
      exact getLast?_append_right hc

/-- The stripped line is already whitespace-stripped. -/
theorem strip_pyStrip_fix (s : Str) :
    pyStrip (strip_step_numbering s) = strip_step_numbering s := by
  unfold strip_step_numbering
  split
  · rename_i hs; rw [hs]; rfl
  split
  case h_2 => exact pyStrip_idem s
  rename_i rest hm
  obtain ⟨d, w, hcs, hd, hdig, hws, hrh⟩ := matchOrd_some hm
  cases rest with
  | nil => rfl
  | cons b u =>
    apply pyStrip_eq_self
    · intro c hc
      exact hrh c hc
    · intro c hc
      apply @pyStrip_getLast?_false s c
      rw [hcs]
      rw [show d ++ '.' :: (w ++ b :: u) = (d ++ '.' :: w) ++ (b :: u) by simp]
      exact getLast?_append_right hc

/--
C2 (amended): one application of either operation removes or collapses only
one leading ordinal pattern, so a second application can act again; each
operation is idempotent precisely on inputs whose once-processed result no
longer begins with its pattern.  Stated for `repair_duplicate_ordinal`
(`clean_step_numbering`) and `strip_ordinal` (`strip_step_numbering`).
-/
theorem c2_idempotent_unless_rematch (s t : Str)
    (h1 : matchDup (clean_step_numbering s) = none)
    (h2 : matchOrd (strip_step_numbering t) = none) :
    clean_step_numbering (clean_step_numbering s) = clean_step_numbering s ∧
    strip_step_numbering (strip_step_numbering t) = strip_step_numbering t := by
  constructor
  · by_cases hcs : clean_step_numbering s = []
    · rw [hcs]; rfl
    · have hfix := clean_pyStrip_fix s
      set u := clean_step_numbering s with hu
      unfold clean_step_numbering
      rw [if_neg hcs, hfix, h1]
  · by_cases hct : strip_step_numbering t = []
    · rw [hct]; rfl
    · have hfix := strip_pyStrip_fix t
      set u := strip_step_numbering t with hu
      unfold strip_step_numbering
      rw [if_neg hct, hfix, h2]

/--
C2 counterexample: neither operation is idempotent as claimed.  On
`"2. 2. 2. Mix"`, one repair collapses only the first duplicated ordinal,
yielding `"2. 2. Mix"`, and a second application changes the result again; on
`"1. 2. Mix"`, one strip removes only `"1. "` and a second removes `"2. "`.
-/
theorem c2_not_idempotent_cx :
    clean_step_numbering (clean_step_numbering (("2. 2. 2. Mix").data)) ≠
      clean_step_numbering (("2. 2. 2. Mix").data) ∧
    strip_step_numbering (strip_step_numbering (("1. 2. Mix").data)) ≠
      strip_step_numbering (("1. 2. Mix").data) := by
  constructor <;> decide

/-- Witness for `c2_idempotent_unless_rematch` at the spec's own examples. -/
theorem c2_idempotent_witness :
    clean_step_numbering (clean_step_numbering (("2. 2. Mix").data)) =
      clean_step_numbering (("2. 2. Mix").data) ∧
    strip_step_numbering (strip_step_numbering (("3. Bake at 350").data)) =
      strip_step_numbering (("3. Bake at 350").data) :=
  c2_idempotent_unless_rematch (("2. 2. Mix").data) (("3. Bake at 350").data)
    (by decide) (by decide)

/--
C5 (amended): both operations first trim surrounding whitespace (Python
`.strip()`), and only then is the text after the matched prefix of the
trimmed line returned verbatim: the repaired line is the collapsed ordinal
followed character-for-character by the rest of the trimmed line, and the
stripped line is character-for-character a suffix of the trimmed line.
-/
theorem c5_after_prefix_verbatim (s : Str) (hs : s ≠ []) :
    ((∃ d w1 w2 rest,
        pyStrip s = d ++ '.' :: (w1 ++ (d ++ '.' :: (w2 ++ rest))) ∧
        clean_step_numbering s = d ++ '.' :: ' ' :: rest) ∨
      clean_step_numbering s = pyStrip s) ∧
    ((∃ d w rest, pyStrip s = d ++ '.' :: (w ++ rest) ∧
        strip_step_numbering s = rest) ∨
      strip_step_numbering s = pyStrip s) := by
  constructor
  · cases hm : matchDup (pyStrip s) with
    | none => right; simp [clean_step_numbering, hs, hm]
    | some p =>
      obtain ⟨d, rest⟩ := p
      obtain ⟨w1, w2, hcs, _, _, _, _, _, _, _⟩ := matchDup_some hm
      exact Or.inl ⟨d, w1, w2, rest, hcs, by simp [clean_step_numbering, hs, hm]⟩
  · cases hm : matchOrd (pyStrip s) with
    | none => right; simp [strip_step_numbering, hs, hm]
    | some rest =>
      obtain ⟨d, w, hcs, _, _, _, _⟩ := matchOrd_some hm
      exact Or.inl ⟨d, w, rest, hcs, by simp [strip_step_numbering, hs, hm]⟩

/--
C5 counterexample: the claim fails on whitespace.  `"Bake at 350 "` has no
ordinal prefix, so the text after the (empty) prefix is the whole line, yet
`clean_step_numbering` returns it without the trailing blank; likewise
`"3. Bake at 350 "` is `"3. "` followed by `"Bake at 350 "`, but
`strip_step_numbering` does not return that trailing portion verbatim.
-/
theorem c5_trailing_blank_cx :
    matchDup (pyStrip (("Bake at 350 ").data)) = none ∧
    clean_step_numbering (("Bake at 350 ").data) ≠ ("Bake at 350 ").data ∧
    ("3. Bake at 350 ").data = ("3. ").data ++ ("Bake at 350 ").data ∧
    strip_step_numbering (("3. Bake at 350 ").data) ≠ ("Bake at 350 ").data := by
  refine ⟨by decide, by decide, by decide, by decide⟩

/-- Witness for `c5_after_prefix_verbatim` at `"2. 2. Mix"`. -/
theorem c5_verbatim_witness :
    ((∃ d w1 w2 rest,
        pyStrip (("2. 2. Mix").data) =
          d ++ '.' :: (w1 ++ (d ++ '.' :: (w2 ++ rest))) ∧
        clean_step_numbering (("2. 2. Mix").data) = d ++ '.' :: ' ' :: rest) ∨
      clean_step_numbering (("2. 2. Mix").data) = pyStrip (("2. 2. Mix").data)) ∧
    ((∃ d w rest,
        pyStrip (("2. 2. Mix").data) = d ++ '.' :: (w ++ rest) ∧
        strip_step_numbering (("2. 2. Mix").data) = rest) ∨
      strip_step_numbering (("2. 2. Mix").data) = pyStrip (("2. 2. Mix").data)) :=
  c5_after_prefix_verbatim (("2. 2. Mix").data) (by decide)

/-! ## C7: backup import failure leaves the collection unmodified -/

/--
C7 (confirmed): when the uploaded backup fails to deserialize, the import
signals the recoverable error branch (`st.error`, reported here as `false`)
and the previously held collection is returned unmodified.
-/
theorem c7_upload_malformed_keeps_state (st : JValue) (s : Str)
    (h : loads s = none) : upload_backup st s = (st, false) := by
  unfold upload_backup
  rw [h]

/-- Witness for `c7_upload_malformed_keeps_state` on a malformed payload. -/
theorem c7_upload_witness :
    loads (("not a backup").data) = none ∧
    upload_backup (JValue.arr []) (("not a backup").data) = (JValue.arr [], false) :=
  ⟨rfl, c7_upload_malformed_keeps_state (JValue.arr []) (("not a backup").data) rfl⟩

/-! ## C1: there is no regex salvage stage -/

/--
C1 (amended): when both the strict and the comma-repaired parse of the
brace-extracted candidate fail, `parse_recipe_json` returns `None`
unconditionally — no regex salvage is attempted, whatever the text contains.
-/
theorem c1_both_parses_fail_returns_none (s jt : Str)
    (hc : jsonCandidate (fenceStrip (pyStrip s)) = some jt)
    (h1 : loads jt = none) (h2 : loads (commaRepair jt) = none) :
    parse_recipe_json s = .ok none := by
  unfold parse_recipe_json
  simp only [hc, h1, h2]

/--
C1 counterexample: on this input both parses fail (an unquoted token makes
the candidate irreparably malformed), and the claimed regex salvage would
find the title `"Soup"`, yet `parse_recipe_json` returns `None` rather than
a salvaged record: the function has no salvage stage (src/app.py lines
44-51 go straight from the repair retry to `return None`).
-/
theorem c1_no_salvage_cx :
    jsonCandidate (fenceStrip (pyStrip
        (("\x7b\"title\": \"Soup\", \"ingredients\": [oops]\x7d").data))) =
      some (("\x7b\"title\": \"Soup\", \"ingredients\": [oops]\x7d").data) ∧
    loads (("\x7b\"title\": \"Soup\", \"ingredients\": [oops]\x7d").data) = none ∧
    loads (commaRepair
        (("\x7b\"title\": \"Soup\", \"ingredients\": [oops]\x7d").data)) = none ∧
    specSalvageTitle (("\x7b\"title\": \"Soup\", \"ingredients\": [oops]\x7d").data) =
      some (("Soup").data) ∧
    parse_recipe_json (("\x7b\"title\": \"Soup\", \"ingredients\": [oops]\x7d").data) =
      .ok none :=
  ⟨rfl, rfl, rfl, rfl, rfl⟩

/-- Witness for `c1_both_parses_fail_returns_none` at a concrete input. -/
theorem c1_returns_none_witness :
    parse_recipe_json (("\x7b\"name\": broken\x7d").data) = .ok none :=
  c1_both_parses_fail_returns_none (("\x7b\"name\": broken\x7d").data)
    (("\x7b\"name\": broken\x7d").data) rfl rfl rfl

/-! ## C4: case-insensitive dedupe on add -/

theorem addLoop_spec (cands : List Recipe) :
    ∀ (titles : List Str) (recipes : List Recipe) (n : Nat),
      addLoop titles recipes n cands =
        (recipes ++ keepNew titles cands, n + (keepNew titles cands).length) := by
  induction cands with
  | nil => intro titles recipes n; simp [addLoop, keepNew]
  | cons r rest ih =>
    intro titles recipes n
    unfold addLoop keepNew
    by_cases h : keyOf r ∈ titles
    · rw [if_pos h, if_pos h]; exact ih titles recipes n
    · rw [if_neg h, if_neg h]
      rw [ih (keyOf r :: titles) (recipes ++ [r]) (n + 1)]
      simp only [Prod.mk.injEq]
      constructor
      · simp
      · simp only [List.length_cons]; omega

theorem dedup_length_cons (a : Str) (L : List Str) :
    (a :: L).dedup.length =
      (L.filter (fun k => decide (k ≠ a))).dedup.length + 1 := by
  rw [← List.card_toFinset, ← List.card_toFinset, List.toFinset_cons,
    List.toFinset_filter]
  have he : Finset.filter (fun x => decide (x ≠ a) = true) L.toFinset
      = L.toFinset.erase a := by
    ext x
    simp [Finset.mem_erase, and_comm]
  rw [he]
  have h1 := Finset.card_erase_add_one (Finset.mem_insert_self a L.toFinset)
  rw [Finset.erase_insert_eq_erase] at h1
  omega

theorem keepNew_length (cands : List Recipe) : ∀ titles : List Str,
    (keepNew titles cands).length =
      ((cands.map keyOf).filter (fun k => decide (k ∉ titles))).dedup.length := by
  induction cands with
  | nil => intro titles; simp [keepNew]
  | cons r rest ih =>
    intro titles
    unfold keepNew
    by_cases h : keyOf r ∈ titles
    · rw [if_pos h]
      have hc : decide (keyOf r ∉ titles) = false := by simp [h]
      simp only [List.map_cons, List.filter_cons, hc, Bool.false_eq_true,
        if_false]
      exact ih titles
    · rw [if_neg h]
      have hc : decide (keyOf r ∉ titles) = true := by simp [h]
      simp only [List.map_cons, List.filter_cons, hc, if_true]
      simp only [List.length_cons]
      rw [ih (keyOf r :: titles)]
      have hsplit : (rest.map keyOf).filter (fun k => decide (k ∉ keyOf r :: titles))
          = ((rest.map keyOf).filter (fun k => decide (k ∉ titles))).filter
              (fun k => decide (k ≠ keyOf r)) := by
        rw [List.filter_filter]
        apply List.filter_congr
        intro k _
        simp [List.mem_cons, not_or, and_comm]
      rw [hsplit, dedup_length_cons]

theorem keepNew_sub (cands : List Recipe) : ∀ (titles : List Str) (c : Recipe),
    c ∈ keepNew titles cands → c ∈ cands ∧ keyOf c ∉ titles := by
  induction cands with
  | nil => intro titles c hc; simp [keepNew] at hc
  | cons r rest ih =>
    intro titles c hc
    unfold keepNew at hc
    by_cases h : keyOf r ∈ titles
    · rw [if_pos h] at hc
      obtain ⟨h1, h2⟩ := ih titles c hc
      exact ⟨List.mem_cons_of_mem r h1, h2⟩
    · rw [if_neg h] at hc
      rcases List.mem_cons.mp hc with rfl | hc2
      · exact ⟨List.mem_cons_self c rest, h⟩
      · obtain ⟨h1, h2⟩ := ih (keyOf r :: titles) c hc2
        refine ⟨List.mem_cons_of_mem r h1, fun hx => h2 ?_⟩
        exact List.mem_cons_of_mem _ hx

theorem keepNew_covers (cands : List Recipe) : ∀ (titles : List Str) (c : Recipe),
    c ∈ cands → keyOf c ∉ titles → keyOf c ∈ (keepNew titles cands).map keyOf := by
  induction cands with
  | nil => intro titles c hc; simp at hc
  | cons r rest ih =>
    intro titles c hc hnew
    unfold keepNew
    by_cases h : keyOf r ∈ titles
    · rw [if_pos h]
      rcases List.mem_cons.mp hc with rfl | hc2
      · exact absurd h hnew
      · exact ih titles c hc2 hnew
    · rw [if_neg h]
      rcases List.mem_cons.mp hc with rfl | hc2
      · simp
      · by_cases he : keyOf c = keyOf r
        · simp [he]
        · have hn2 : keyOf c ∉ (keyOf r :: titles) := by
            simp only [List.mem_cons, not_or]
            exact ⟨he, hnew⟩
          simp only [List.map_cons, List.mem_cons]
          exact Or.inr (ih (keyOf r :: titles) c hc2 hn2)

/--
C4 (confirmed): the dedupe-and-add loop appends exactly the candidates whose
case-insensitive title key is genuinely new (not among existing titles, first
occurrence per key within the batch), discards the rest without error, and
the collection grows by exactly the number of distinct genuinely new title
keys in the batch.
-/
theorem c4_addBatch_dedup (recipes cands : List Recipe) :
    ∃ accepted,
      addBatch recipes cands = (recipes ++ accepted, accepted.length) ∧
      (∀ c ∈ accepted, c ∈ cands ∧ keyOf c ∉ recipes.map keyOf) ∧
      (∀ c ∈ cands, keyOf c ∉ recipes.map keyOf → keyOf c ∈ accepted.map keyOf) ∧
      (addBatch recipes cands).1.length = recipes.length +
        ((cands.map keyOf).filter
          (fun k => decide (k ∉ recipes.map keyOf))).dedup.length := by
  refine ⟨keepNew (recipes.map keyOf) cands, ?_, ?_, ?_, ?_⟩
  · unfold addBatch; rw [addLoop_spec]; simp
  · intro c hc; exact keepNew_sub cands _ c hc
  · intro c hc hn; exact keepNew_covers cands _ c hc hn
  · unfold addBatch
    rw [addLoop_spec]
    simp [keepNew_length]

/-! ## C10: the collection is re-sorted after a successful add batch -/

theorem strLe_cons_iff (x y : Char) (xs ys : Str) :
    strLe (x :: xs) (y :: ys) = true ↔
      x.toNat < y.toNat ∨ (x.toNat = y.toNat ∧ strLe xs ys = true) := by
  rw [show strLe (x :: xs) (y :: ys) =
    (if x.toNat < y.toNat then true
     else if y.toNat < x.toNat then false else strLe xs ys) from rfl]
  by_cases h1 : x.toNat < y.toNat
  · simp [h1]
  · by_cases h2 : y.toNat < x.toNat
    · rw [if_neg h1, if_pos h2]
      simp only [Bool.false_eq_true, false_iff]
      rintro (h | ⟨h, _⟩) <;> omega
    · rw [if_neg h1, if_neg h2]
      have he : x.toNat = y.toNat := by omega
      constructor
      · intro h; exact Or.inr ⟨he, h⟩
      · rintro (h | ⟨_, h⟩)
        · exact absurd h h1
        · exact h

theorem strLe_trans (a : Str) : ∀ b c : Str,
    strLe a b = true → strLe b c = true → strLe a c = true := by
  induction a with
  | nil => intro b c _ _; rfl
  | cons x xs ih =>
    intro b c h1 h2
    cases b with
    | nil => simp [strLe] at h1
    | cons y ys =>
      cases c with
      | nil => simp [strLe] at h2
      | cons z zs =>
        rw [strLe_cons_iff] at h1 h2 ⊢
        rcases h1 with h1 | ⟨h1e, h1r⟩
        · rcases h2 with h2 | ⟨h2e, _⟩
          · exact Or.inl (by omega)
          · exact Or.inl (by omega)
        · rcases h2 with h2 | ⟨h2e, h2r⟩
          · exact Or.inl (by omega)
          · exact Or.inr ⟨by omega, ih ys zs h1r h2r⟩

theorem strLe_total (a : Str) : ∀ b : Str, (strLe a b || strLe b a) = true := by
  induction a with
  | nil => intro b; simp [strLe]
  | cons x xs ih =>
    intro b
    cases b with
    | nil => simp [strLe]
    | cons y ys =>
      rw [Bool.or_eq_true, strLe_cons_iff, strLe_cons_iff]
      by_cases h1 : x.toNat < y.toNat
      · exact Or.inl (Or.inl h1)
      · by_cases h2 : y.toNat < x.toNat
        · exact Or.inr (Or.inl h2)
        · have he : x.toNat = y.toNat := by omega
          rcases Bool.or_eq_true _ _ |>.mp (ih ys) with h | h
          · exact Or.inl (Or.inr ⟨he, h⟩)
          · exact Or.inr (Or.inr ⟨he.symm, h⟩)

/--
C10 (confirmed): whenever an extraction batch adds at least one record, the
add action re-sorts the whole collection, which is left pairwise ordered
ascending by the case-insensitive title key.
-/
theorem c10_addAndSort_sorted (recipes cands : List Recipe)
    (h : 0 < (addBatch recipes cands).2) :
    addAndSort recipes cands =
      (sortByTitle (addBatch recipes cands).1, (addBatch recipes cands).2) ∧
    List.Pairwise (fun a b => strLe (keyOf a) (keyOf b) = true)
      (addAndSort recipes cands).1 := by
  have heq : addAndSort recipes cands =
      (sortByTitle (addBatch recipes cands).1, (addBatch recipes cands).2) := by
    unfold addAndSort
    rw [if_pos h]
  refine ⟨heq, ?_⟩
  rw [heq]
  exact List.sorted_mergeSort
    (fun a b c hab hbc => strLe_trans (keyOf a) (keyOf b) (keyOf c) hab hbc)
    (fun a b => strLe_total (keyOf a) (keyOf b)) _

/-- Witness for `c10_addAndSort_sorted` at a one-candidate batch. -/
theorem c10_sorted_witness :
    List.Pairwise (fun a b => strLe (keyOf a) (keyOf b) = true)
      (addAndSort [] [⟨("Soup").data, [], []⟩]).1 :=
  (c10_addAndSort_sorted [] [⟨("Soup").data, [], []⟩] (by decide)).2

/-! ## C8: schema-extractor ingredient coercion -/

/--
C8 (amended): the extractor's ingredient field is the declared list with its
*falsy* entries dropped before coercion, and every remaining entry — string
or not — coerced by `str()` and trimmed.  In particular a truthy non-string
entry is kept in coerced form rather than dropped, and a whitespace-only
string entry survives as an empty string.  The spec's description
(non-string/empty entries dropped, `specIngredientsOf`) agrees with the code
exactly when every declared entry is a string that is empty only if it is
empty before trimming.
-/
theorem c8_ingredients_coercion (rec : List (Str × JValue)) (xs : List JValue)
    (h : jlookup rec (("recipeIngredient").data) = some (.arr xs)) :
    ingredientsOf rec = (xs.filter jTruthy).map (fun v => pyStrip (pyStr v)) ∧
    ((∀ v ∈ xs, ∃ s, v = JValue.str s ∧ (pyStrip s = [] → s = [])) →
      ingredientsOf rec = specIngredientsOf rec) := by
  constructor
  · unfold ingredientsOf
    rw [h]
  · intro hall
    have key : ∀ ys : List JValue,
        (∀ v ∈ ys, ∃ s, v = JValue.str s ∧ (pyStrip s = [] → s = [])) →
        (ys.filter jTruthy).map (fun v => pyStrip (pyStr v)) =
          (ys.filterMap
            (fun v => match v with | .str s => some (pyStrip s) | _ => none)).filter
            (fun s => decide (s ≠ [])) := by
      intro ys
      induction ys with
      | nil => intro _; rfl
      | cons v vs ih =>
        intro hys
        obtain ⟨s, rfl, hs⟩ := hys v (by simp)
        have ihh := ih (fun w hw => hys w (List.mem_cons_of_mem _ hw))
        by_cases hse : s = []
        · subst hse
          simpa [jTruthy, List.filter_cons, List.filterMap_cons, pyStrip] using ihh
        · have hps : pyStrip s ≠ [] := fun hx => hse (hs hx)
          simpa [jTruthy, hse, hps, List.filter_cons, List.filterMap_cons,
            pyStr] using ihh
    unfold ingredientsOf specIngredientsOf
    rw [h]
    exact key xs hall

/--
C8 counterexample: on a qualifying candidate whose declared ingredient list
is `["flour", " "]`, the code keeps the whitespace-only entry as the empty
string (it is truthy before trimming), while the claim says entries that are
empty are dropped; non-string truthy entries would likewise be kept in
`str()`-coerced form rather than dropped.
-/
theorem c8_whitespace_entry_cx :
    ingredientsOf
        [(("name").data, .str (("Cake").data)),
         (("recipeIngredient").data,
          .arr [.str (("flour").data), .str ((" ").data)])] =
      [("flour").data, []] ∧
    specIngredientsOf
        [(("name").data, .str (("Cake").data)),
         (("recipeIngredient").data,
          .arr [.str (("flour").data), .str ((" ").data)])] =
      [("flour").data] ∧
    ([("flour").data, ([] : Str)] : List Str) ≠ [("flour").data] :=
  ⟨rfl, rfl, by decide⟩

/-- Witness for `c8_ingredients_coercion` on an all-string declared list. -/
theorem c8_coercion_witness :
    ingredientsOf [(("recipeIngredient").data, .arr [.str (("2 eggs").data)])] =
      specIngredientsOf
        [(("recipeIngredient").data, .arr [.str (("2 eggs").data)])] :=
  (c8_ingredients_coercion
    [(("recipeIngredient").data, .arr [.str (("2 eggs").data)])]
    [.str (("2 eggs").data)] rfl).2 (by
      intro v hv
      rw [List.mem_singleton] at hv
      subst hv
      exact ⟨("2 eggs").data, rfl, by decide⟩)

/-! ## C9: markdown-fence stripping machinery -/

theorem startsWithStr_append_self (p rest : Str) :
    startsWithStr p (p ++ rest) = true := by
  unfold startsWithStr
  rw [List.take_left]
  exact decide_eq_true rfl

theorem containsSub_of_drop {cs pat : Str} (i : Nat)
    (h : startsWithStr pat (cs.drop i) = true) (hp : pat ≠ []) :
    containsSub cs pat = true := by
  induction cs generalizing i with
  | nil =>
    rw [List.drop_nil] at h
    unfold startsWithStr at h
    rw [decide_eq_true_iff] at h
    simp only [List.take_nil] at h
    exact absurd h.symm hp
  | cons c cs' ih =>
    cases i with
    | zero =>
      rw [List.drop_zero] at h
      unfold containsSub
      rw [h]
      rfl
    | succ i' =>
      have h2 := ih i' (by rwa [List.drop_succ_cons] at h)
      unfold containsSub
      rw [h2]
      simp

theorem exists_drop_of_containsSub {cs pat : Str} (h : containsSub cs pat = true) :
    ∃ i, startsWithStr pat (cs.drop i) = true := by
  induction cs with
  | nil =>
    refine ⟨0, ?_⟩
    unfold containsSub at h
    rw [decide_eq_true_iff] at h
    unfold startsWithStr
    simp [h]
  | cons c cs' ih =>
    unfold containsSub at h
    rw [Bool.or_eq_true] at h
    rcases h with h | h
    · exact ⟨0, by rwa [List.drop_zero]⟩
    · obtain ⟨i, hi⟩ := ih h
      exact ⟨i + 1, by rwa [List.drop_succ_cons]⟩

theorem containsSub_of_take {cs pat : Str} {m : Nat} (hp : pat ≠ [])
    (h : containsSub (cs.take m) pat = true) : containsSub cs pat = true := by
  obtain ⟨i, hi⟩ := exists_drop_of_containsSub h
  rw [List.drop_take] at hi
  unfold startsWithStr at hi
  rw [decide_eq_true_iff, List.take_take] at hi
  have hlen := congrArg List.length hi
  simp only [List.length_take] at hlen
  have hmin : min pat.length (m - i) = pat.length := by omega
  rw [hmin] at hi
  exact containsSub_of_drop i (by unfold startsWithStr; rw [decide_eq_true_iff]; exact hi) hp

theorem containsSub_of_inner_drop {cs pat : Str} {n : Nat} (hp : pat ≠ [])
    (h : containsSub (cs.drop n) pat = true) : containsSub cs pat = true := by
  obtain ⟨i, hi⟩ := exists_drop_of_containsSub h
  rw [List.drop_drop] at hi
  exact containsSub_of_drop (n + i) hi hp

theorem dropWhile_eq_drop_len (p : Char → Bool) (l : Str) :
    l.dropWhile p = l.drop (l.takeWhile p).length := by
  induction l with
  | nil => rfl
  | cons a t ih =>
    rw [List.dropWhile_cons, List.takeWhile_cons]
    by_cases h : p a
    · simp only [h, if_true, ite_true]
      rw [ih]
      simp
    · simp [h]

theorem pyStrip_sub (cs : Str) : ∃ n m, pyStrip cs = (cs.drop n).take m := by
  refine ⟨(cs.takeWhile isPySpace).length,
    (cs.dropWhile isPySpace).length -
      ((cs.dropWhile isPySpace).reverse.takeWhile isPySpace).length, ?_⟩
  rw [pyStrip_eq_rdrop, ← dropWhile_eq_drop_len]
  rw [List.rdropWhile, dropWhile_eq_drop_len isPySpace (cs.dropWhile isPySpace).reverse]
  rw [← List.rdrop_eq_reverse_drop_reverse]
  rw [List.rdrop]

theorem containsSub_pyStrip {t pat : Str} (hp : pat ≠ [])
    (h : containsSub (pyStrip t) pat = true) : containsSub t pat = true := by
  obtain ⟨n, m, hs⟩ := pyStrip_sub t
  rw [hs] at h
  exact containsSub_of_inner_drop hp (containsSub_of_take hp h)

theorem take3_cons3 (a b c : Char) (X : Str) :
    (a :: b :: c :: X).take 3 = [a, b, c] := by
  simp [List.take_succ_cons]

/-- A text starting with the fence marker starts with three backquotes. -/
theorem startsWith_fence3_elim {xs : Str} (h : startsWithStr fence3 xs = true) :
    ∃ ys, xs = bq :: bq :: bq :: ys := by
  rcases xs with _ | ⟨a, _ | ⟨b, _ | ⟨c, zs⟩⟩⟩
  · unfold startsWithStr at h
    rw [decide_eq_true_iff] at h
    exact absurd (congrArg List.length h.symm) (by decide)
  · unfold startsWithStr at h
    rw [decide_eq_true_iff] at h
    have := congrArg List.length h
    rw [List.length_take, show ([a] : Str).length = 1 from rfl,
      show (fence3.length : Nat) = 3 from rfl] at this
    exact absurd this (by decide)
  · unfold startsWithStr at h
    rw [decide_eq_true_iff] at h
    have := congrArg List.length h
    rw [List.length_take, show ([a, b] : Str).length = 2 from rfl,
      show (fence3.length : Nat) = 3 from rfl] at this
    exact absurd this (by decide)
  · unfold startsWithStr at h
    rw [decide_eq_true_iff, show (fence3.length : Nat) = 3 from rfl,
      take3_cons3] at h
    rw [show fence3 = [bq, bq, bq] from rfl] at h
    obtain ⟨h1, h'⟩ := List.cons_eq_cons.mp h
    obtain ⟨h2, h''⟩ := List.cons_eq_cons.mp h'
    obtain ⟨h3, -⟩ := List.cons_eq_cons.mp h''
    exact ⟨zs, by rw [h1, h2, h3]⟩

theorem startsWith_fence3_cons_false {c : Char} (cs : Str) (hc : ¬ c = bq) :
    startsWithStr fence3 (c :: cs) = false := by
  by_contra hx
  rw [Bool.not_eq_false] at hx
  obtain ⟨ys, hys⟩ := startsWith_fence3_elim hx
  exact hc (List.cons_eq_cons.mp hys).1

theorem fence3_not_start_append_nl (t R : Str)
    (hnf : containsSub t fence3 = false) (j : Nat) (hj : j ≤ t.length) :
    startsWithStr fence3 ((t ++ '\n' :: R).drop j) = false := by
  rw [List.drop_append_of_le_length hj]
  by_contra hx
  rw [Bool.not_eq_false] at hx
  obtain ⟨ys, hys⟩ := startsWith_fence3_elim hx
  rcases hdl : t.drop j with _ | ⟨a, _ | ⟨b, _ | ⟨c, rest⟩⟩⟩ <;> rw [hdl] at hys
  · rw [List.nil_append] at hys
    exact absurd (List.cons_eq_cons.mp hys).1 (by decide)
  · rw [show ([a] : Str) ++ '\n' :: R = a :: '\n' :: R from rfl] at hys
    exact absurd (List.cons_eq_cons.mp (List.cons_eq_cons.mp hys).2).1 (by decide)
  · rw [show ([a, b] : Str) ++ '\n' :: R = a :: b :: '\n' :: R from rfl] at hys
    exact absurd (List.cons_eq_cons.mp
      (List.cons_eq_cons.mp (List.cons_eq_cons.mp hys).2).2).1 (by decide)
  · rw [show (a :: b :: c :: rest : Str) ++ '\n' :: R
      = a :: b :: c :: (rest ++ '\n' :: R) from rfl] at hys
    obtain ⟨ha, hys'⟩ := List.cons_eq_cons.mp hys
    obtain ⟨hb, hys''⟩ := List.cons_eq_cons.mp hys'
    obtain ⟨hcc, -⟩ := List.cons_eq_cons.mp hys''
    have h3 : startsWithStr fence3 (t.drop j) = true := by
      rw [hdl, ha, hb, hcc]
      rw [show (bq :: bq :: bq :: rest : Str) = fence3 ++ rest from rfl]
      exact startsWithStr_append_self fence3 rest
    have h4 := containsSub_of_drop j h3 (by decide)
    rw [hnf] at h4
    cases h4

theorem takeUntilFence_eq (u r : Str)
    (hu : ∀ i, i < u.length →
      startsWithStr fence3 ((u ++ (fence3 ++ r)).drop i) = false) :
    takeUntilFence (u ++ (fence3 ++ r)) = u := by
  induction u with
  | nil =>
    rw [List.nil_append]
    rw [show fence3 ++ r = bq :: (bq :: bq :: r) from rfl]
    unfold takeUntilFence
    rw [show (bq :: (bq :: bq :: r) : Str) = fence3 ++ r from rfl]
    rw [startsWithStr_append_self]
    rfl
  | cons c u' ih =>
    have h0 := hu 0 (by simp)
    rw [List.drop_zero, List.cons_append] at h0
    rw [List.cons_append]
    unfold takeUntilFence
    rw [h0]
    simp only [Bool.false_eq_true, if_false]
    congr 1
    apply ih
    intro i hi
    have := hu (i + 1) (by simp only [List.length_cons]; omega)
    rwa [List.cons_append, List.drop_succ_cons] at this

theorem pyStrip_nl_wrap (t : Str) :
    pyStrip ('\n' :: (t ++ ['\n'])) = pyStrip t := by
  rw [pyStrip_eq_rdrop, pyStrip_eq_rdrop]
  rw [List.dropWhile_cons]
  rw [if_pos (by decide : isPySpace '\n' = true)]
  rw [List.dropWhile_append]
  by_cases h : (t.dropWhile isPySpace).isEmpty
  · rw [if_pos h]
    rw [show (List.dropWhile isPySpace ['\n'] : Str) = [] from rfl]
    rw [List.isEmpty_iff] at h
    rw [h]
  · rw [if_neg h]
    rw [List.rdropWhile_concat_pos _ _ _ (by decide : isPySpace '\n' = true)]

theorem takeUntilFence_nl (t : Str) (hnf : containsSub t fence3 = false) :
    takeUntilFence ('\n' :: (t ++ '\n' :: fence3)) = '\n' :: (t ++ ['\n']) := by
  have heq : ('\n' :: (t ++ '\n' :: fence3) : Str)
      = ('\n' :: (t ++ ['\n'])) ++ (fence3 ++ []) := by simp
  rw [heq]
  apply takeUntilFence_eq
  intro i hi
  rw [← heq]
  cases i with
  | zero =>
    rw [List.drop_zero]
    exact startsWith_fence3_cons_false _ (by decide)
  | succ j =>
    rw [List.drop_succ_cons]
    have hj : j ≤ t.length := by
      simp only [List.length_cons, List.length_append, List.length_singleton,
        List.length_nil] at hi
      omega
    exact fence3_not_start_append_nl t fence3 hnf j hj

theorem pyStrip_fenceWrap (tag t : Str) :
    pyStrip (fenceWrap tag t) = fenceWrap tag t := by
  apply pyStrip_eq_self
  · intro c hc
    rw [show fenceWrap tag t
      = bq :: (bq :: bq :: (tag ++ '\n' :: (t ++ '\n' :: fence3))) from rfl] at hc
    simp only [List.head?_cons, Option.some.injEq] at hc
    rw [← hc]
    decide
  · intro c hc
    have hsplit : fenceWrap tag t
        = (fence3 ++ tag ++ '\n' :: t ++ ['\n']) ++ fence3 := by
      simp [fenceWrap]
    have hlast : ((fence3 ++ tag ++ '\n' :: t ++ ['\n']) ++ fence3).getLast?
        = some bq :=
      getLast?_append_right (by rfl)
    rw [hsplit, hlast] at hc
    rw [show c = bq from (Option.some.injEq _ _ ▸ hc).symm]
    decide

theorem fenceStrip_wrap_json (t : Str) (hnf : containsSub t fence3 = false) :
    fenceStrip (pyStrip (fenceWrap (("json").data) t)) = pyStrip t := by
  rw [pyStrip_fenceWrap]
  have hsw : startsWithStr fenceJson (fenceWrap (("json").data) t) = true := by
    rw [show fenceWrap (("json").data) t
      = fenceJson ++ ('\n' :: (t ++ '\n' :: fence3)) from rfl]
    exact startsWithStr_append_self _ _
  unfold fenceStrip
  rw [hsw]
  simp only [if_true]
  have hdrop : (fenceWrap (("json").data) t).drop 7 = '\n' :: (t ++ '\n' :: fence3) := by
    rw [show fenceWrap (("json").data) t
      = fenceJson ++ ('\n' :: (t ++ '\n' :: fence3)) from rfl]
    rw [show (7 : Nat) = fenceJson.length from rfl]
    exact List.drop_left _ _
  rw [hdrop, takeUntilFence_nl t hnf, pyStrip_nl_wrap]

theorem startsWith_fenceJson_nl_false (X : Str) :
    startsWithStr fenceJson (bq :: bq :: bq :: '\n' :: X) = false := by
  unfold startsWithStr
  apply decide_eq_false
  intro h
  rw [show (fenceJson.length : Nat) = 7 from rfl] at h
  rw [show fenceJson = [bq, bq, bq, 'j', 's', 'o', 'n'] from rfl] at h
  simp only [List.take_succ_cons] at h
  obtain ⟨-, h'⟩ := List.cons_eq_cons.mp h
  obtain ⟨-, h''⟩ := List.cons_eq_cons.mp h'
  obtain ⟨-, h'''⟩ := List.cons_eq_cons.mp h''
  exact absurd (List.cons_eq_cons.mp h''').1 (by decide)

theorem fenceStrip_wrap_plain (t : Str) (hnf : containsSub t fence3 = false) :
    fenceStrip (pyStrip (fenceWrap [] t)) = pyStrip t := by
  rw [pyStrip_fenceWrap]
  have hshape : fenceWrap [] t = bq :: bq :: bq :: '\n' :: (t ++ '\n' :: fence3) := rfl
  unfold fenceStrip
  rw [hshape, startsWith_fenceJson_nl_false]
  simp only [Bool.false_eq_true, if_false]
  rw [show (bq :: bq :: bq :: '\n' :: (t ++ '\n' :: fence3) : Str)
    = fence3 ++ ('\n' :: (t ++ '\n' :: fence3)) from rfl]
  rw [startsWithStr_append_self]
  simp only [if_true]
  rw [show (3 : Nat) = fence3.length from rfl, List.drop_left]
  rw [takeUntilFence_nl t hnf, pyStrip_nl_wrap]

theorem fenceStrip_nofence (t : Str) (hnf : containsSub t fence3 = false) :
    fenceStrip (pyStrip t) = pyStrip t := by
  have h3 : startsWithStr fence3 (pyStrip t) = false := by
    by_contra hx
    rw [Bool.not_eq_false] at hx
    obtain ⟨ys, hys⟩ := startsWith_fence3_elim hx
    have hocc : containsSub (pyStrip t) fence3 = true := by
      apply containsSub_of_drop 0 ?_ (by decide)
      rw [List.drop_zero, hys]
      rw [show (bq :: bq :: bq :: ys : Str) = fence3 ++ ys from rfl]
      exact startsWithStr_append_self _ _
    have h4 := containsSub_pyStrip (by decide) hocc
    rw [hnf] at h4
    cases h4
  have hj : startsWithStr fenceJson (pyStrip t) = false := by
    by_contra hx
    rw [Bool.not_eq_false] at hx
    unfold startsWithStr at hx
    rw [decide_eq_true_iff] at hx
    have h5 := congrArg (List.take 3) hx
    rw [List.take_take] at h5
    rw [show ((3 : Nat) ⊓ fenceJson.length) = 3 from by decide] at h5
    rw [show (fenceJson.take 3 : Str) = fence3 from rfl] at h5
    have h6 : startsWithStr fence3 (pyStrip t) = true := by
      unfold startsWithStr
      rw [decide_eq_true_iff]
      rw [show (fence3.length : Nat) = 3 from rfl]
      exact h5
    rw [h3] at h6
    cases h6
  unfold fenceStrip
  rw [hj, h3]
  simp

/--
C9 (amended): for every text that does not itself contain the triple-backquote
fence marker, parsing the text wrapped in a fenced code block — with the
`json` language tag or with none — yields the same result as parsing the
unwrapped text.  (A fence marker inside the text breaks the equality, because
the stripping stage cuts the content at the first marker it finds.)
-/
theorem c9_fence_wrap_eq (t : Str) (hnf : containsSub t fence3 = false) :
    parse_recipe_json (fenceWrap (("json").data) t) = parse_recipe_json t ∧
    parse_recipe_json (fenceWrap [] t) = parse_recipe_json t := by
  unfold parse_recipe_json
  rw [fenceStrip_wrap_json t hnf, fenceStrip_wrap_plain t hnf,
    fenceStrip_nofence t hnf]
  exact ⟨rfl, rfl⟩

/--
C9 counterexample: for a text containing the fence marker inside a JSON
string, wrapping changes the result: unwrapped, the object parses; wrapped,
the content is truncated at the inner marker and the parse returns `None`.
-/
theorem c9_fence_in_text_cx :
    parse_recipe_json (fenceWrap (("json").data) (("\x7b\"t\": \"a```b\"\x7d").data)) ≠
      parse_recipe_json (("\x7b\"t\": \"a```b\"\x7d").data) := by
  intro h
  exact absurd (congrArg isOkSome h) (by decide)

/-- Witness for `c9_fence_wrap_eq` at a marker-free text. -/
theorem c9_fence_wrap_witness :
    parse_recipe_json (fenceWrap (("json").data) (("\x7b\"a\": 1\x7d").data)) =
      parse_recipe_json (("\x7b\"a\": 1\x7d").data) :=
  (c9_fence_wrap_eq (("\x7b\"a\": 1\x7d").data) (by decide)).1

/-! ## Parsing the serializer's output: string literals -/

theorem skipWs_ws_append {w : Str} (hw : ∀ c ∈ w, isJsonWs c) (cs : Str) :
    skipWs (w ++ cs) = skipWs cs := by
  induction w with
  | nil => rfl
  | cons a w' ih =>
    rw [List.cons_append]
    unfold skipWs
    rw [List.dropWhile_cons, if_pos (hw a (by simp))]
    exact ih (fun c hc => hw c (by simp [hc]))

theorem skipWs_cons_not {c : Char} (cs : Str) (hc : isJsonWs c = false) :
    skipWs (c :: cs) = c :: cs := by
  unfold skipWs
  rw [List.dropWhile_cons, hc]
  simp

theorem hexVal_hexDigit : ∀ m : Nat, m < 16 → hexVal (hexDigit m) = some m := by
  decide

theorem ofNatAux_toNat (c : Char) (h : c.toNat.isValidChar) :
    Char.ofNatAux c.toNat h = c := by
  apply Char.ext
  simp [Char.ofNatAux]
  rfl

theorem ofNatAux_congr {m n : Nat} (h : m = n) (hm : m.isValidChar) :
    Char.ofNatAux m hm = Char.ofNatAux n (h ▸ hm) := by
  subst h
  rfl

theorem decodeHex4_escape (c : Char) (hc : c.toNat < 32) :
    decodeHex4 '0' '0' (hexDigit (c.toNat / 16)) (hexDigit (c.toNat % 16))
      = some c := by
  unfold decodeHex4
  rw [show hexVal '0' = some 0 from rfl,
    hexVal_hexDigit (c.toNat / 16) (by omega),
    hexVal_hexDigit (c.toNat % 16) (by omega)]
  dsimp only
  rw [dif_pos (by omega)]
  congr 1
  have harith : 0 * 4096 + 0 * 256 + c.toNat / 16 * 16 + c.toNat % 16 = c.toNat := by
    omega
  rw [ofNatAux_congr harith]
  exact ofNatAux_toNat c _

theorem parseStringBody_escDecode (e d : Char) (X : Str)
    (he : escDecode e = some d) (hne : ¬ e = 'u') :
    parseStringBody ('\\' :: e :: X)
      = (parseStringBody X).map (fun r => (d :: r.1, r.2)) := by
  conv_lhs => unfold parseStringBody
  rw [if_neg (by decide : ¬ '\\' = '"'), if_pos (rfl : '\\' = '\\')]
  dsimp only
  rw [if_neg hne, he]

theorem parseStringBody_u (a b c d : Char) (X : Str) :
    parseStringBody ('\\' :: 'u' :: a :: b :: c :: d :: X)
      = (match decodeHex4 a b c d with
         | some ch => (parseStringBody X).map (fun r => (ch :: r.1, r.2))
         | none => none) := by
  conv_lhs => unfold parseStringBody
  rw [if_neg (by decide : ¬ '\\' = '"'), if_pos (rfl : '\\' = '\\')]
  dsimp only
  rw [if_pos (rfl : 'u' = 'u')]

theorem parseStringBody_escape (s : Str) (rest : Str) :
    parseStringBody (escapeStr s ++ '"' :: rest) = some (s, rest) := by
  induction s with
  | nil =>
    rw [show (escapeStr [] : Str) = [] from rfl, List.nil_append]
    unfold parseStringBody
    rw [if_pos rfl]
  | cons c s' ih =>
    rw [show escapeStr (c :: s') = escChar c ++ escapeStr s' from by
      simp [escapeStr]]
    rw [List.append_assoc]
    unfold escChar
    split_ifs with h1 h2 h3 h4 h5 h6 h7 h8
    · subst h1
      rw [show (['\\', '"'] : Str) ++ (escapeStr s' ++ '"' :: rest)
        = '\\' :: '"' :: (escapeStr s' ++ '"' :: rest) from rfl]
      rw [parseStringBody_escDecode '"' '"' _ rfl (by decide), ih]
      rfl
    · subst h2
      rw [show (['\\', '\\'] : Str) ++ (escapeStr s' ++ '"' :: rest)
        = '\\' :: '\\' :: (escapeStr s' ++ '"' :: rest) from rfl]
      rw [parseStringBody_escDecode '\\' '\\' _ rfl (by decide), ih]
      rfl
    · subst h3
      rw [show (['\\', 'n'] : Str) ++ (escapeStr s' ++ '"' :: rest)
        = '\\' :: 'n' :: (escapeStr s' ++ '"' :: rest) from rfl]
      rw [parseStringBody_escDecode 'n' '\n' _ rfl (by decide), ih]
      rfl
    · subst h4
      rw [show (['\\', 'r'] : Str) ++ (escapeStr s' ++ '"' :: rest)
        = '\\' :: 'r' :: (escapeStr s' ++ '"' :: rest) from rfl]
      rw [parseStringBody_escDecode 'r' '\r' _ rfl (by decide), ih]
      rfl
    · subst h5
      rw [show (['\\', 't'] : Str) ++ (escapeStr s' ++ '"' :: rest)
        = '\\' :: 't' :: (escapeStr s' ++ '"' :: rest) from rfl]
      rw [parseStringBody_escDecode 't' '\t' _ rfl (by decide), ih]
      rfl
    · subst h6
      rw [show (['\\', 'b'] : Str) ++ (escapeStr s' ++ '"' :: rest)
        = '\\' :: 'b' :: (escapeStr s' ++ '"' :: rest) from rfl]
      rw [parseStringBody_escDecode 'b' '\x08' _ rfl (by decide), ih]
      rfl
    · subst h7
      rw [show (['\\', 'f'] : Str) ++ (escapeStr s' ++ '"' :: rest)
        = '\\' :: 'f' :: (escapeStr s' ++ '"' :: rest) from rfl]
      rw [parseStringBody_escDecode 'f' '\x0c' _ rfl (by decide), ih]
      rfl
    · rw [show ('\\' :: 'u' :: '0' :: '0' :: hexDigit (c.toNat / 16)
          :: hexDigit (c.toNat % 16) :: [] : Str) ++ (escapeStr s' ++ '"' :: rest)
        = '\\' :: 'u' :: '0' :: '0' :: hexDigit (c.toNat / 16)
          :: hexDigit (c.toNat % 16) :: (escapeStr s' ++ '"' :: rest) from rfl]
      rw [parseStringBody_u]
      rw [decodeHex4_escape c (by omega)]
      rw [ih]
      rfl
    · rw [show ([c] : Str) ++ (escapeStr s' ++ '"' :: rest)
        = c :: (escapeStr s' ++ '"' :: rest) from rfl]
      unfold parseStringBody
      rw [if_neg h1, if_neg h2, if_neg (by omega : ¬ c.toNat < 32)]
      rw [ih]
      rfl

/-- `parseVal` equation: first non-ws char a quote parses a string body. -/
theorem parseVal_str_step (f : Nat) (cs r1 : Str)
    (h : skipWs cs = '"' :: r1) :
    parseVal (f + 1) cs
      = (parseStringBody r1).map (fun r => (.str r.1, r.2)) := by
  conv_lhs => unfold parseVal
  rw [h]
  rfl

/-- `parseVal` equation: first non-ws char `[` dispatches on the array body. -/
theorem parseVal_arr_step (f : Nat) (cs rest : Str)
    (h : skipWs cs = '[' :: rest) :
    parseVal (f + 1) cs
      = match skipWs rest with
        | ']' :: r2 => some (.arr [], r2)
        | _ => (parseElems f rest).map (fun r => (.arr r.1, r.2)) := by
  conv_lhs => unfold parseVal
  rw [h]
  rfl

/-- `parseVal` equation: first non-ws char `{` dispatches on the object body. -/
theorem parseVal_obj_step (f : Nat) (cs rest : Str)
    (h : skipWs cs = '{' :: rest) :
    parseVal (f + 1) cs
      = match skipWs rest with
        | '}' :: r2 => some (.obj [], r2)
        | _ => (parseMembers f rest).map (fun r => (.obj r.1, r.2)) := by
  conv_lhs => unfold parseVal
  rw [h]
  rfl

/-- `parseElems` equation: after one parsed element, dispatch on the next
non-ws char. -/
theorem parseElems_step (f : Nat) (cs r1 : Str) (v : JValue)
    (h : parseVal f cs = some (v, r1)) :
    parseElems (f + 1) cs
      = match skipWs r1 with
        | ',' :: r2 => (parseElems f r2).map (fun r => (v :: r.1, r.2))
        | ']' :: r2 => some ([v], r2)
        | _ => none := by
  conv_lhs => unfold parseElems
  rw [h]

theorem parseVal_str (f : Nat) {w : Str} (hw : ∀ c ∈ w, isJsonWs c)
    (s rest : Str) :
    parseVal (f + 1) (w ++ (renderStrJ s ++ rest)) = some (.str s, rest) := by
  have hsk : skipWs (w ++ (renderStrJ s ++ rest))
      = '"' :: (escapeStr s ++ '"' :: rest) := by
    rw [skipWs_ws_append hw]
    rw [show renderStrJ s ++ rest = '"' :: (escapeStr s ++ '"' :: rest) from by
      simp [renderStrJ]]
    exact skipWs_cons_not _ (by decide)
  rw [parseVal_str_step f _ _ hsk, parseStringBody_escape]
  rfl

theorem parseElems_strs {wA wB : Str} (hA : ∀ c ∈ wA, isJsonWs c)
    (hB : ∀ c ∈ wB, isJsonWs c) :
    ∀ (xs : List Str) (x : Str) (f : Nat) (rest : Str),
    parseElems ((f + xs.length + 1) + 1)
        (wA ++ (sepList (',' :: wA) ((x :: xs).map renderStrJ)
          ++ (wB ++ ']' :: rest)))
      = some ((x :: xs).map .str, rest) := by
  intro xs
  induction xs with
  | nil =>
    intro x f rest
    rw [show sepList (',' :: wA) ([x].map renderStrJ) = renderStrJ x from rfl]
    rw [show f + List.length [] + 1 = f + 1 from by simp]
    rw [parseElems_step (f + 1) _ _ _ (parseVal_str f hA x (wB ++ ']' :: rest))]
    rw [skipWs_ws_append hB, skipWs_cons_not _ (by decide)]
    rfl
  | cons y xs' ih =>
    intro x f rest
    rw [show sepList (',' :: wA) ((x :: y :: xs').map renderStrJ)
      = renderStrJ x ++ (',' :: (wA ++ (sepList (',' :: wA)
          ((y :: xs').map renderStrJ)))) from by
      simp [sepList]]
    rw [show (f + (y :: xs').length + 1) + 1
      = ((f + xs'.length + 1) + 1) + 1 from by simp; omega]
    rw [show wA ++ (renderStrJ x ++ (',' :: (wA ++ sepList (',' :: wA)
          ((y :: xs').map renderStrJ))) ++ (wB ++ ']' :: rest))
      = wA ++ (renderStrJ x ++ (',' :: (wA ++ (sepList (',' :: wA)
          ((y :: xs').map renderStrJ) ++ (wB ++ ']' :: rest))))) from by
      simp]
    rw [parseElems_step ((f + xs'.length + 1) + 1) _ _ _
      (parseVal_str (f + xs'.length + 1) hA x
        (',' :: (wA ++ (sepList (',' :: wA) ((y :: xs').map renderStrJ)
          ++ (wB ++ ']' :: rest)))))]
    rw [skipWs_cons_not _ (by decide)]
    show (parseElems ((f + xs'.length + 1) + 1)
        (wA ++ (sepList (',' :: wA) ((y :: xs').map renderStrJ)
          ++ (wB ++ ']' :: rest)))).map
        (fun r => (JValue.str x :: r.1, r.2))
      = some ((x :: y :: xs').map JValue.str, rest)
    rw [ih y f rest]
    rfl

theorem parseVal_strArr (f : Nat) {w0 wA wB : Str}
    (h0 : ∀ c ∈ w0, isJsonWs c) (hA : ∀ c ∈ wA, isJsonWs c)
    (hB : ∀ c ∈ wB, isJsonWs c) (xs : List Str) (rest : Str) :
    parseVal ((f + xs.length + 1) + 1)
        (w0 ++ (renderStrArrW wA wB xs ++ rest))
      = some (.arr (xs.map .str), rest) := by
  cases xs with
  | nil =>
    have hsk : skipWs (w0 ++ (renderStrArrW wA wB [] ++ rest))
        = '[' :: ']' :: rest := by
      rw [skipWs_ws_append h0]
      rw [show renderStrArrW wA wB [] ++ rest = '[' :: ']' :: rest from rfl]
      exact skipWs_cons_not _ (by decide)
    rw [show f + List.length ([] : List Str) + 1 = f + 1 from by simp]
    rw [parseVal_arr_step (f + 1) _ _ hsk]
    rw [skipWs_cons_not _ (by decide)]
    rfl
  | cons x xs' =>
    rw [show (f + (x :: xs').length + 1) + 1 = (((f + xs'.length + 1) + 1) + 1)
      from by simp only [List.length_cons]; omega]
    have hsh : renderStrArrW wA wB (x :: xs') ++ rest
        = '[' :: (wA ++ (sepList (',' :: wA) ((x :: xs').map renderStrJ)
            ++ (wB ++ ']' :: rest))) := by
      simp [renderStrArrW]
    have hsk : skipWs (w0 ++ (renderStrArrW wA wB (x :: xs') ++ rest))
        = '[' :: (wA ++ (sepList (',' :: wA) ((x :: xs').map renderStrJ)
            ++ (wB ++ ']' :: rest))) := by
      rw [skipWs_ws_append h0, hsh]
      exact skipWs_cons_not _ (by decide)
    have hhd : ∃ T, sepList (',' :: wA) ((x :: xs').map renderStrJ) = '"' :: T := by
      cases xs' with
      | nil => exact ⟨escapeStr x ++ ['"'], by simp [sepList, renderStrJ]⟩
      | cons z zs =>
        exact ⟨escapeStr x ++ ['"'] ++ ((',' :: wA) ++ sepList (',' :: wA)
          ((z :: zs).map renderStrJ)), by simp [sepList, renderStrJ]⟩
    obtain ⟨T, hT⟩ := hhd
    have hS : skipWs (wA ++ (sepList (',' :: wA) ((x :: xs').map renderStrJ)
        ++ (wB ++ ']' :: rest))) = '"' :: (T ++ (wB ++ ']' :: rest)) := by
      rw [skipWs_ws_append hA, hT, List.cons_append]
      exact skipWs_cons_not _ (by decide)
    rw [parseVal_arr_step ((f + xs'.length + 1) + 1) _ _ hsk]
    rw [hS]
    show (parseElems ((f + xs'.length + 1) + 1)
        (wA ++ (sepList (',' :: wA) ((x :: xs').map renderStrJ)
          ++ (wB ++ ']' :: rest)))).map
        (fun r => (JValue.arr r.1, r.2))
      = some (.arr ((x :: xs').map .str), rest)
    rw [parseElems_strs hA hB xs' x f rest]
    rfl

/-- `parseMembers` equation: first non-ws char a quote starts a key. -/
theorem parseMembers_s1 (f : Nat) (cs r1 : Str)
    (h : skipWs cs = '"' :: r1) :
    parseMembers (f + 1) cs
      = match parseStringBody r1 with
        | none => none
        | some (key, r2) =>
          match skipWs r2 with
          | ':' :: r3 =>
            (match parseVal f r3 with
             | none => none
             | some (v, r4) =>
               match skipWs r4 with
               | ',' :: r5 => (parseMembers f r5).map (fun r => ((key, v) :: r.1, r.2))
               | '}' :: r5 => some ([(key, v)], r5)
               | _ => none)
          | _ => none := by
  conv_lhs => unfold parseMembers
  rw [h]
  rfl

/-- `parseMembers` equation: after the key, require a colon. -/
theorem parseMembers_s2 (f : Nat) (cs r1 r2 key : Str)
    (h : skipWs cs = '"' :: r1) (h2 : parseStringBody r1 = some (key, r2)) :
    parseMembers (f + 1) cs
      = match skipWs r2 with
        | ':' :: r3 =>
          (match parseVal f r3 with
           | none => none
           | some (v, r4) =>
             match skipWs r4 with
             | ',' :: r5 => (parseMembers f r5).map (fun r => ((key, v) :: r.1, r.2))
             | '}' :: r5 => some ([(key, v)], r5)
             | _ => none)
        | _ => none := by
  rw [parseMembers_s1 f cs r1 h, h2]

/-- `parseMembers` equation: after the colon, parse the member's value. -/
theorem parseMembers_s3 (f : Nat) (cs r1 r2 r3 key : Str)
    (h : skipWs cs = '"' :: r1) (h2 : parseStringBody r1 = some (key, r2))
    (h3 : skipWs r2 = ':' :: r3) :
    parseMembers (f + 1) cs
      = match parseVal f r3 with
        | none => none
        | some (v, r4) =>
          match skipWs r4 with
          | ',' :: r5 => (parseMembers f r5).map (fun r => ((key, v) :: r.1, r.2))
          | '}' :: r5 => some ([(key, v)], r5)
          | _ => none := by
  rw [parseMembers_s2 f cs r1 r2 key h h2, h3]
  rfl

/-- `parseMembers` equation: after the value, dispatch on comma or brace. -/
theorem parseMembers_s4 (f : Nat) (cs r1 r2 r3 r4 key : Str) (v : JValue)
    (h : skipWs cs = '"' :: r1) (h2 : parseStringBody r1 = some (key, r2))
    (h3 : skipWs r2 = ':' :: r3) (h4 : parseVal f r3 = some (v, r4)) :
    parseMembers (f + 1) cs
      = match skipWs r4 with
        | ',' :: r5 => (parseMembers f r5).map (fun r => ((key, v) :: r.1, r.2))
        | '}' :: r5 => some ([(key, v)], r5)
        | _ => none := by
  rw [parseMembers_s3 f cs r1 r2 r3 key h h2 h3, h4]

/-- `parseMembers` equation: a comma after the member keeps parsing members. -/
theorem parseMembers_comma (f : Nat) (cs r1 r2 r3 r4 r5 key : Str) (v : JValue)
    (h : skipWs cs = '"' :: r1) (h2 : parseStringBody r1 = some (key, r2))
    (h3 : skipWs r2 = ':' :: r3) (h4 : parseVal f r3 = some (v, r4))
    (h5 : skipWs r4 = ',' :: r5) :
    parseMembers (f + 1) cs
      = (parseMembers f r5).map (fun r => ((key, v) :: r.1, r.2)) := by
  rw [parseMembers_s4 f cs r1 r2 r3 r4 key v h h2 h3 h4, h5]
  rfl

/-- `parseMembers` equation: a closing brace after the member ends the
object. -/
theorem parseMembers_close (f : Nat) (cs r1 r2 r3 r4 r5 key : Str) (v : JValue)
    (h : skipWs cs = '"' :: r1) (h2 : parseStringBody r1 = some (key, r2))
    (h3 : skipWs r2 = ':' :: r3) (h4 : parseVal f r3 = some (v, r4))
    (h5 : skipWs r4 = '}' :: r5) :
    parseMembers (f + 1) cs = some ([(key, v)], r5) := by
  rw [parseMembers_s4 f cs r1 r2 r3 r4 key v h h2 h3 h4, h5]
  rfl

/-- `parseMembers` fails on a closing brace where a key is required. -/
theorem parseMembers_rbrace (f : Nat) (cs r : Str)
    (h : skipWs cs = '}' :: r) :
    parseMembers (f + 1) cs = none := by
  conv_lhs => unfold parseMembers
  rw [h]
  rfl

/-- Fuel-flexible form of `parseVal_str`. -/
theorem parseVal_str_after {w : Str} (hw : ∀ c ∈ w, isJsonWs c)
    (s rest : Str) (F : Nat) (hF : 1 ≤ F) :
    parseVal F (w ++ (renderStrJ s ++ rest)) = some (.str s, rest) := by
  obtain ⟨g, rfl⟩ : ∃ g, F = g + 1 := ⟨F - 1, by omega⟩
  exact parseVal_str g hw s rest

/-- Fuel-flexible form of `parseVal_strArr`. -/
theorem parseVal_strArr_after {w0 wA wB : Str}
    (h0 : ∀ c ∈ w0, isJsonWs c) (hA : ∀ c ∈ wA, isJsonWs c)
    (hB : ∀ c ∈ wB, isJsonWs c) (xs : List Str) (rest : Str) (F : Nat)
    (hF : xs.length + 2 ≤ F) :
    parseVal F (w0 ++ (renderStrArrW wA wB xs ++ rest))
      = some (.arr (xs.map .str), rest) := by
  obtain ⟨g, rfl⟩ : ∃ g, F = (g + xs.length + 1) + 1 :=
    ⟨F - xs.length - 2, by omega⟩
  exact parseVal_strArr g h0 hA hB xs rest

/-- One serialized `"key": "string value"` member followed by a comma and
further members. -/
theorem parseMembers_member_str {wA wC : Str}
    (hA : ∀ c ∈ wA, isJsonWs c) (hC : ∀ c ∈ wC, isJsonWs c)
    (k s REST : Str) (F : Nat) (hF : 1 ≤ F) :
    parseMembers (F + 1)
        (wA ++ (renderStrJ k ++ (':' :: (wC ++ (renderStrJ s ++ (',' :: REST))))))
      = (parseMembers F REST).map (fun r => ((k, .str s) :: r.1, r.2)) := by
  have h1 : skipWs (wA ++ (renderStrJ k
        ++ (':' :: (wC ++ (renderStrJ s ++ (',' :: REST))))))
      = '"' :: (escapeStr k
          ++ '"' :: (':' :: (wC ++ (renderStrJ s ++ (',' :: REST))))) := by
    rw [skipWs_ws_append hA]
    rw [show renderStrJ k ++ (':' :: (wC ++ (renderStrJ s ++ (',' :: REST))))
      = '"' :: (escapeStr k
          ++ '"' :: (':' :: (wC ++ (renderStrJ s ++ (',' :: REST)))))
      from by simp [renderStrJ]]
    exact skipWs_cons_not _ (by decide)
  exact parseMembers_comma F _ _ _ _ _ _ k (.str s) h1
    (parseStringBody_escape k _) (skipWs_cons_not _ (by decide))
    (parseVal_str_after hC s (',' :: REST) F hF)
    (skipWs_cons_not _ (by decide))

/-- One serialized `"key": [strings...]` member followed by a comma and
further members. -/
theorem parseMembers_member_arr {wA wC wA2 wB2 : Str}
    (hA : ∀ c ∈ wA, isJsonWs c) (hC : ∀ c ∈ wC, isJsonWs c)
    (hA2 : ∀ c ∈ wA2, isJsonWs c) (hB2 : ∀ c ∈ wB2, isJsonWs c)
    (k : Str) (xs : List Str) (REST : Str) (F : Nat)
    (hF : xs.length + 2 ≤ F) :
    parseMembers (F + 1)
        (wA ++ (renderStrJ k
          ++ (':' :: (wC ++ (renderStrArrW wA2 wB2 xs ++ (',' :: REST))))))
      = (parseMembers F REST).map
          (fun r => ((k, .arr (xs.map .str)) :: r.1, r.2)) := by
  have h1 : skipWs (wA ++ (renderStrJ k
        ++ (':' :: (wC ++ (renderStrArrW wA2 wB2 xs ++ (',' :: REST))))))
      = '"' :: (escapeStr k
          ++ '"' :: (':' :: (wC ++ (renderStrArrW wA2 wB2 xs
            ++ (',' :: REST))))) := by
    rw [skipWs_ws_append hA]
    rw [show renderStrJ k
        ++ (':' :: (wC ++ (renderStrArrW wA2 wB2 xs ++ (',' :: REST))))
      = '"' :: (escapeStr k
          ++ '"' :: (':' :: (wC ++ (renderStrArrW wA2 wB2 xs
            ++ (',' :: REST)))))
      from by simp [renderStrJ]]
    exact skipWs_cons_not _ (by decide)
  exact parseMembers_comma F _ _ _ _ _ _ k (.arr (xs.map .str)) h1
    (parseStringBody_escape k _) (skipWs_cons_not _ (by decide))
    (parseVal_strArr_after hC hA2 hB2 xs (',' :: REST) F hF)
    (skipWs_cons_not _ (by decide))

/-- One serialized `"key": [strings...]` member, last of the object, with
whitespace `wE` before the closing brace. -/
theorem parseMembers_member_arr_close {wA wC wA2 wB2 wE : Str}
    (hA : ∀ c ∈ wA, isJsonWs c) (hC : ∀ c ∈ wC, isJsonWs c)
    (hA2 : ∀ c ∈ wA2, isJsonWs c) (hB2 : ∀ c ∈ wB2, isJsonWs c)
    (hE : ∀ c ∈ wE, isJsonWs c)
    (k : Str) (xs : List Str) (REST : Str) (F : Nat)
    (hF : xs.length + 2 ≤ F) :
    parseMembers (F + 1)
        (wA ++ (renderStrJ k
          ++ (':' :: (wC ++ (renderStrArrW wA2 wB2 xs
            ++ (wE ++ '}' :: REST))))))
      = some ([(k, .arr (xs.map .str))], REST) := by
  have h1 : skipWs (wA ++ (renderStrJ k
        ++ (':' :: (wC ++ (renderStrArrW wA2 wB2 xs ++ (wE ++ '}' :: REST))))))
      = '"' :: (escapeStr k
          ++ '"' :: (':' :: (wC ++ (renderStrArrW wA2 wB2 xs
            ++ (wE ++ '}' :: REST))))) := by
    rw [skipWs_ws_append hA]
    rw [show renderStrJ k
        ++ (':' :: (wC ++ (renderStrArrW wA2 wB2 xs ++ (wE ++ '}' :: REST))))
      = '"' :: (escapeStr k
          ++ '"' :: (':' :: (wC ++ (renderStrArrW wA2 wB2 xs
            ++ (wE ++ '}' :: REST)))))
      from by simp [renderStrJ]]
    exact skipWs_cons_not _ (by decide)
  have h5 : skipWs (wE ++ '}' :: REST) = '}' :: REST := by
    rw [skipWs_ws_append hE]
    exact skipWs_cons_not _ (by decide)
  exact parseMembers_close F _ _ _ _ _ _ k (.arr (xs.map .str)) h1
    (parseStringBody_escape k _) (skipWs_cons_not _ (by decide))
    (parseVal_strArr_after hC hA2 hB2 xs (wE ++ '}' :: REST) F hF) h5

/-- `skipWs` before a serialized key reveals the opening quote. -/
theorem skipWs_key {wA : Str} (hA : ∀ c ∈ wA, isJsonWs c) (k X : Str) :
    skipWs (wA ++ (renderStrJ k ++ X)) = '"' :: (escapeStr k ++ '"' :: X) := by
  rw [skipWs_ws_append hA]
  rw [show renderStrJ k ++ X = '"' :: (escapeStr k ++ '"' :: X) from by
    simp [renderStrJ]]
  exact skipWs_cons_not _ (by decide)

/-- `parseVal` on an object whose first member key follows: defer to
`parseMembers`. -/
theorem parseVal_obj_members (f : Nat) (cs rest T : Str)
    (h : skipWs cs = '{' :: rest) (h2 : skipWs rest = '"' :: T) :
    parseVal (f + 1) cs
      = (parseMembers f rest).map (fun r => (.obj r.1, r.2)) := by
  rw [parseVal_obj_step f cs rest h, h2]
  rfl

/-- `parseVal` on an array whose first element is an object: defer to
`parseElems`. -/
theorem parseVal_arr_elems_obj (f : Nat) (cs rest T : Str)
    (h : skipWs cs = '[' :: rest) (h2 : skipWs rest = '{' :: T) :
    parseVal (f + 1) cs
      = (parseElems f rest).map (fun r => (.arr r.1, r.2)) := by
  rw [parseVal_arr_step f cs rest h, h2]
  rfl

/-- The three members of a serialized recipe object parse to the encoded
field list. -/
theorem parseMembers_recipe3 {wA wC wA2 wB2 wE : Str}
    (hA : ∀ c ∈ wA, isJsonWs c) (hC : ∀ c ∈ wC, isJsonWs c)
    (hA2 : ∀ c ∈ wA2, isJsonWs c) (hB2 : ∀ c ∈ wB2, isJsonWs c)
    (hE : ∀ c ∈ wE, isJsonWs c)
    (t : Str) (ing st : List Str) (rest : Str) (F3 : Nat)
    (h2 : ing.length + 1 ≤ F3) (h3 : st.length + 2 ≤ F3) :
    parseMembers (((F3 + 1) + 1) + 1)
        (wA ++ (renderStrJ ("title".data) ++ (':' :: (wC ++ (renderStrJ t ++ (',' :: (wA ++ (renderStrJ ("ingredients".data) ++ (':' :: (wC ++ (renderStrArrW wA2 wB2 ing ++ (',' :: (wA ++ (renderStrJ ("steps".data) ++ (':' :: (wC ++ (renderStrArrW wA2 wB2 st ++ (wE ++ '}' :: rest))))))))))))))))))
      = some ([(("title".data), .str t),
               (("ingredients".data), .arr (ing.map .str)),
               (("steps".data), .arr (st.map .str))], rest) := by
  rw [parseMembers_member_str hA hC ("title".data) t _ ((F3 + 1) + 1)
    (by omega)]
  rw [parseMembers_member_arr hA hC hA2 hB2 ("ingredients".data) ing _
    (F3 + 1) (by omega)]
  rw [parseMembers_member_arr_close hA hC hA2 hB2 hE ("steps".data) st rest
    F3 h3]
  rfl

/-- A serialized recipe object parses to its encoded dict, for any all-ws
layout strings and ample fuel. -/
theorem parseVal_recipeW {w0 wA wC wA2 wB2 wE : Str}
    (h0 : ∀ c ∈ w0, isJsonWs c) (hA : ∀ c ∈ wA, isJsonWs c)
    (hC : ∀ c ∈ wC, isJsonWs c) (hA2 : ∀ c ∈ wA2, isJsonWs c)
    (hB2 : ∀ c ∈ wB2, isJsonWs c) (hE : ∀ c ∈ wE, isJsonWs c)
    (r : Recipe) (rest : Str) (F : Nat)
    (hF : r.ingredients.length + r.steps.length + 8 ≤ F) :
    parseVal F (w0 ++ (renderRecipeW wA wC wA2 wB2 wE r ++ rest))
      = some (encodeRecipe r, rest) := by
  obtain ⟨F3, rfl⟩ : ∃ F3, F = (((F3 + 1) + 1) + 1) + 1 := ⟨F - 4, by omega⟩
  have hR : renderRecipeW wA wC wA2 wB2 wE r ++ rest
      = '{' :: (wA ++ (renderStrJ ("title".data) ++ (':' :: (wC ++ (renderStrJ r.title ++ (',' :: (wA ++ (renderStrJ ("ingredients".data) ++ (':' :: (wC ++ (renderStrArrW wA2 wB2 r.ingredients ++ (',' :: (wA ++ (renderStrJ ("steps".data) ++ (':' :: (wC ++ (renderStrArrW wA2 wB2 r.steps ++ (wE ++ '}' :: rest)))))))))))))))))) := by
    simp [renderRecipeW]
  have hsk : skipWs (w0 ++ (renderRecipeW wA wC wA2 wB2 wE r ++ rest))
      = '{' :: (wA ++ (renderStrJ ("title".data) ++ (':' :: (wC ++ (renderStrJ r.title ++ (',' :: (wA ++ (renderStrJ ("ingredients".data) ++ (':' :: (wC ++ (renderStrArrW wA2 wB2 r.ingredients ++ (',' :: (wA ++ (renderStrJ ("steps".data) ++ (':' :: (wC ++ (renderStrArrW wA2 wB2 r.steps ++ (wE ++ '}' :: rest)))))))))))))))))) := by
    rw [skipWs_ws_append h0, hR]
    exact skipWs_cons_not _ (by decide)
  rw [parseVal_obj_members (((F3 + 1) + 1) + 1) _ _ _ hsk
    (skipWs_key hA _ _)]
  rw [parseMembers_recipe3 hA hC hA2 hB2 hE r.title r.ingredients r.steps
    rest F3 (by omega) (by omega)]
  rfl

/-- Every whitespace string of the `indent=4` layout is JSON whitespace. -/
theorem nlPad_ws (n : Nat) : ∀ c ∈ nlPad n, isJsonWs c := by
  intro c hc
  rcases List.mem_cons.mp hc with h | h
  · subst h; rfl
  · rw [List.eq_of_mem_replicate h]; rfl

theorem space_ws : ∀ c ∈ ([' '] : Str), isJsonWs c := by decide

theorem nil_ws : ∀ c ∈ ([] : Str), isJsonWs c := by simp

/-- A rendered JSON string literal is at least two characters long. -/
theorem renderStrJ_len (s : Str) : 2 ≤ (renderStrJ s).length := by
  simp [renderStrJ]

/-- Items of length at least two force `sepList` to carry at least two
characters per item, minus one for the missing last separator. -/
theorem sepList_ge (sep : Str) :
    ∀ (items : List Str), (∀ x ∈ items, 2 ≤ x.length) →
    2 * items.length ≤ (sepList sep items).length + 1
  | [], _ => by simp [sepList]
  | [x], h => by
    have := h x (by simp)
    simp [sepList]
    omega
  | x :: y :: xs, h => by
    have hx := h x (by simp)
    have ih := sepList_ge sep (y :: xs) (fun z hz => h z (by simp [hz]))
    simp only [sepList, List.length_append, List.length_cons]
    simp only [List.length_cons] at ih
    omega

/-- The serialized string array is longer than the element count plus the
two brackets. -/
theorem renderStrArrW_len (wA wB : Str) (xs : List Str) :
    xs.length + 2 ≤ (renderStrArrW wA wB xs).length := by
  cases xs with
  | nil => simp [renderStrArrW]
  | cons x xs' =>
    have hs := sepList_ge (',' :: wA) ((x :: xs').map renderStrJ)
      (fun z hz => by
        obtain ⟨s, _, rfl⟩ := List.mem_map.mp hz
        exact renderStrJ_len s)
    rw [show renderStrArrW wA wB (x :: xs')
      = '[' :: wA ++ sepList (',' :: wA) ((x :: xs').map renderStrJ)
          ++ wB ++ [']'] from rfl]
    simp only [List.length_append, List.length_cons, List.length_map] at *
    omega

/-- A serialized recipe object is longer than its parse fuel. -/
theorem renderRecipeW_len (w1 w2 w3 w4 w5 : Str) (r : Recipe) :
    recipeFuel r ≤ (renderRecipeW w1 w2 w3 w4 w5 r).length := by
  have hI := renderStrArrW_len w3 w4 r.ingredients
  have hS := renderStrArrW_len w3 w4 r.steps
  have hT := renderStrJ_len r.title
  simp only [renderRecipeW, recipeFuel, List.length_append, List.length_cons]
  omega

/-- The separated list of rendered recipes is longer than the batch fuel. -/
theorem batchFuel_le_sepList (sep w1 w2 w3 w4 w5 : Str) :
    ∀ (rs : List Recipe),
    batchFuel rs ≤ (sepList sep (rs.map (renderRecipeW w1 w2 w3 w4 w5))).length
  | [] => by simp [batchFuel, sepList]
  | [r] => by
    have := renderRecipeW_len w1 w2 w3 w4 w5 r
    simp only [batchFuel, List.map_cons, List.map_nil, sepList]
    omega
  | r :: y :: ys => by
    have hr := renderRecipeW_len w1 w2 w3 w4 w5 r
    have ih := batchFuel_le_sepList sep w1 w2 w3 w4 w5 (y :: ys)
    simp only [batchFuel, List.map_cons, sepList, List.length_append]
    simp only [batchFuel, List.map_cons] at ih
    omega

/-- A non-empty serialized list of recipe objects parses element by element
to the encoded records, given batch fuel. -/
theorem parseElems_recipes {wA wB w1 w2 w3 w4 w5 : Str}
    (hA : ∀ c ∈ wA, isJsonWs c) (hB : ∀ c ∈ wB, isJsonWs c)
    (h1 : ∀ c ∈ w1, isJsonWs c) (h2 : ∀ c ∈ w2, isJsonWs c)
    (h3 : ∀ c ∈ w3, isJsonWs c) (h4 : ∀ c ∈ w4, isJsonWs c)
    (h5 : ∀ c ∈ w5, isJsonWs c) :
    ∀ (rs : List Recipe) (r : Recipe) (F : Nat) (rest : Str),
    batchFuel (r :: rs) ≤ F →
    parseElems F
        (wA ++ (sepList (',' :: wA)
          ((r :: rs).map (renderRecipeW w1 w2 w3 w4 w5))
          ++ (wB ++ ']' :: rest)))
      = some ((r :: rs).map encodeRecipe, rest) := by
  intro rs
  induction rs with
  | nil =>
    intro r F rest hFuel
    simp only [batchFuel, recipeFuel] at hFuel
    obtain ⟨G, rfl⟩ : ∃ G, F = G + 1 := ⟨F - 1, by omega⟩
    rw [show sepList (',' :: wA) ([r].map (renderRecipeW w1 w2 w3 w4 w5))
      = renderRecipeW w1 w2 w3 w4 w5 r from rfl]
    rw [parseElems_step G _ _ _
      (parseVal_recipeW hA h1 h2 h3 h4 h5 r (wB ++ ']' :: rest) G (by omega))]
    rw [skipWs_ws_append hB, skipWs_cons_not _ (by decide)]
    rfl
  | cons y ys ih =>
    intro r F rest hFuel
    have hb : batchFuel (y :: ys)
        = y.ingredients.length + y.steps.length + 9 + batchFuel ys := by
      simp [batchFuel, recipeFuel]
    simp only [batchFuel, recipeFuel] at hFuel
    obtain ⟨G, rfl⟩ : ∃ G, F = G + 1 := ⟨F - 1, by omega⟩
    rw [show sepList (',' :: wA) ((r :: y :: ys).map (renderRecipeW w1 w2 w3 w4 w5))
      = renderRecipeW w1 w2 w3 w4 w5 r ++ (',' :: (wA ++ (sepList (',' :: wA)
          ((y :: ys).map (renderRecipeW w1 w2 w3 w4 w5))))) from by
      simp [sepList]]
    rw [show wA ++ (renderRecipeW w1 w2 w3 w4 w5 r
          ++ (',' :: (wA ++ (sepList (',' :: wA)
            ((y :: ys).map (renderRecipeW w1 w2 w3 w4 w5)))))
          ++ (wB ++ ']' :: rest))
      = wA ++ (renderRecipeW w1 w2 w3 w4 w5 r
          ++ (',' :: (wA ++ (sepList (',' :: wA)
            ((y :: ys).map (renderRecipeW w1 w2 w3 w4 w5))
            ++ (wB ++ ']' :: rest))))) from by simp]
    rw [parseElems_step G _ _ _
      (parseVal_recipeW hA h1 h2 h3 h4 h5 r
        (',' :: (wA ++ (sepList (',' :: wA)
          ((y :: ys).map (renderRecipeW w1 w2 w3 w4 w5))
          ++ (wB ++ ']' :: rest)))) G (by omega))]
    rw [skipWs_cons_not _ (by decide)]
    show (parseElems G
        (wA ++ (sepList (',' :: wA)
          ((y :: ys).map (renderRecipeW w1 w2 w3 w4 w5))
          ++ (wB ++ ']' :: rest)))).map
        (fun p => (encodeRecipe r :: p.1, p.2))
      = some ((r :: y :: ys).map encodeRecipe, rest)
    rw [ih y G rest (by rw [hb] at *; omega)]
    rfl

/-- A rendered recipe object begins with an opening brace. -/
theorem renderRecipeW_head (w1 w2 w3 w4 w5 : Str) (r : Recipe) :
    ∃ T, renderRecipeW w1 w2 w3 w4 w5 r = '{' :: T := ⟨_, rfl⟩

/-- `sepList` begins with its first item. -/
theorem sepList_cons_eq (sep x : Str) (xs : List Str) :
    ∃ Z, sepList sep (x :: xs) = x ++ Z := by
  cases xs with
  | nil => exact ⟨[], by simp [sepList]⟩
  | cons y ys => exact ⟨sep ++ sepList sep (y :: ys), by simp [sepList]⟩

/-- `json.dumps(recipes, indent=4)` parses back to the encoded records. -/
theorem loads_export (rs : List Recipe) :
    loads (export_backup rs) = some (encodeRecipes rs) := by
  cases rs with
  | nil => rfl
  | cons r rs' =>
    have hmap : (r :: rs').map (renderRecipeAt 1)
        = (r :: rs').map (renderRecipeW (nlPad 2) [' '] (nlPad 3) (nlPad 2)
            (nlPad 1)) := rfl
    have hE : export_backup (r :: rs')
        = '[' :: (nlPad 1 ++ (sepList (',' :: nlPad 1)
            ((r :: rs').map (renderRecipeW (nlPad 2) [' '] (nlPad 3) (nlPad 2)
              (nlPad 1)))
            ++ (nlPad 0 ++ ']' :: ([] : Str)))) := by
      rw [show export_backup (r :: rs')
        = renderArrAt 0 ((r :: rs').map (renderRecipeAt 1)) from rfl, hmap]
      simp [renderArrAt]
    have hlen : batchFuel (r :: rs') ≤ (export_backup (r :: rs')).length := by
      have hsep := batchFuel_le_sepList (',' :: nlPad 1) (nlPad 2) [' ']
        (nlPad 3) (nlPad 2) (nlPad 1) (r :: rs')
      rw [hE]
      simp only [List.length_cons, List.length_append]
      omega
    have hsk : skipWs (export_backup (r :: rs'))
        = '[' :: (nlPad 1 ++ (sepList (',' :: nlPad 1)
            ((r :: rs').map (renderRecipeW (nlPad 2) [' '] (nlPad 3) (nlPad 2)
              (nlPad 1)))
            ++ (nlPad 0 ++ ']' :: ([] : Str)))) := by
      rw [hE]
      exact skipWs_cons_not _ (by decide)
    have hX : ∃ U, skipWs (nlPad 1 ++ (sepList (',' :: nlPad 1)
            ((r :: rs').map (renderRecipeW (nlPad 2) [' '] (nlPad 3) (nlPad 2)
              (nlPad 1)))
            ++ (nlPad 0 ++ ']' :: ([] : Str)))) = '{' :: U := by
      obtain ⟨Z, hZ⟩ := sepList_cons_eq (',' :: nlPad 1)
        (renderRecipeW (nlPad 2) [' '] (nlPad 3) (nlPad 2) (nlPad 1) r)
        (rs'.map (renderRecipeW (nlPad 2) [' '] (nlPad 3) (nlPad 2) (nlPad 1)))
      obtain ⟨T, hT⟩ := renderRecipeW_head (nlPad 2) [' '] (nlPad 3) (nlPad 2)
        (nlPad 1) r
      refine ⟨T ++ (Z ++ (nlPad 0 ++ ']' :: ([] : Str))), ?_⟩
      rw [skipWs_ws_append (nlPad_ws 1), List.map_cons, hZ, hT]
      rw [show (('{' :: T) ++ Z) ++ (nlPad 0 ++ ']' :: ([] : Str))
        = '{' :: (T ++ (Z ++ (nlPad 0 ++ ']' :: ([] : Str)))) from by simp]
      exact skipWs_cons_not _ (by decide)
    obtain ⟨U, hU⟩ := hX
    have hparse : parseVal ((export_backup (r :: rs')).length + 1)
        (export_backup (r :: rs'))
        = some (.arr ((r :: rs').map encodeRecipe), ([] : Str)) := by
      rw [parseVal_arr_elems_obj ((export_backup (r :: rs')).length) _ _ _
        hsk hU]
      rw [parseElems_recipes (nlPad_ws 1) (nlPad_ws 0) (nlPad_ws 2) space_ws
        (nlPad_ws 3) (nlPad_ws 2) (nlPad_ws 1) rs' r
        ((export_backup (r :: rs')).length) ([] : Str) hlen]
      rfl
    conv_lhs => unfold loads
    rw [hparse]
    rfl

/-- `hexDigit` emits a lowercase hexadecimal digit. -/
theorem hexDigit_mem (n : Nat) (h : n < 16) :
    hexDigit n ∈ ("0123456789abcdef".data) := by
  interval_cases n <;> decide

/-- Characters emitted by `escChar` are escape-alphabet characters or the
character itself. -/
theorem escChar_subset (c x : Char) (hx : x ∈ escChar c) :
    x ∈ ("\\\"nrtbfu0123456789abcdef".data) ∨ x = c := by
  have hsub : ∀ y ∈ ("0123456789abcdef".data),
      y ∈ ("\\\"nrtbfu0123456789abcdef".data) := by decide
  unfold escChar at hx
  split_ifs at hx
  · simp only [List.mem_cons, List.not_mem_nil, or_false] at hx
    rcases hx with rfl | rfl <;> exact Or.inl (by decide)
  · simp only [List.mem_cons, List.not_mem_nil, or_false] at hx
    rcases hx with rfl | rfl <;> exact Or.inl (by decide)
  · simp only [List.mem_cons, List.not_mem_nil, or_false] at hx
    rcases hx with rfl | rfl <;> exact Or.inl (by decide)
  · simp only [List.mem_cons, List.not_mem_nil, or_false] at hx
    rcases hx with rfl | rfl <;> exact Or.inl (by decide)
  · simp only [List.mem_cons, List.not_mem_nil, or_false] at hx
    rcases hx with rfl | rfl <;> exact Or.inl (by decide)
  · simp only [List.mem_cons, List.not_mem_nil, or_false] at hx
    rcases hx with rfl | rfl <;> exact Or.inl (by decide)
  · simp only [List.mem_cons, List.not_mem_nil, or_false] at hx
    rcases hx with rfl | rfl <;> exact Or.inl (by decide)
  · simp only [List.mem_cons, List.not_mem_nil, or_false] at hx
    rcases hx with rfl | rfl | rfl | rfl | rfl | rfl
    · exact Or.inl (by decide)
    · exact Or.inl (by decide)
    · exact Or.inl (by decide)
    · exact Or.inl (by decide)
    · exact Or.inl (hsub _ (hexDigit_mem _ (by omega)))
    · exact Or.inl (hsub _ (hexDigit_mem _ (Nat.mod_lt _ (by omega))))
  · simp only [List.mem_cons, List.not_mem_nil, or_false] at hx
    exact Or.inr hx

/-- Characters of an escaped string are escape-alphabet characters or
characters of the source string. -/
theorem mem_escapeStr (s : Str) (x : Char) (hx : x ∈ escapeStr s) :
    x ∈ ("\\\"nrtbfu0123456789abcdef".data) ∨ x ∈ s := by
  unfold escapeStr at hx
  rw [List.mem_flatten] at hx
  obtain ⟨l, hl, hxl⟩ := hx
  obtain ⟨c, hc, rfl⟩ := List.mem_map.mp hl
  rcases escChar_subset c x hxl with h | rfl
  · exact Or.inl h
  · exact Or.inr hc

/-- Characters of a rendered string literal. -/
theorem mem_renderStrJ (s : Str) (x : Char) (hx : x ∈ renderStrJ s) :
    x = '"' ∨ x ∈ escapeStr s := by
  unfold renderStrJ at hx
  simp only [List.mem_cons, List.mem_append, List.not_mem_nil, or_false] at hx
  tauto

/-- Characters of `sepList` come from the separator or from an item. -/
theorem mem_sepList (sep : Str) :
    ∀ (items : List Str) (x : Char),
    x ∈ sepList sep items → x ∈ sep ∨ ∃ l ∈ items, x ∈ l
  | [], x, hx => by simp [sepList] at hx
  | [l], x, hx => Or.inr ⟨l, by simp, by simpa [sepList] using hx⟩
  | a :: b :: rest, x, hx => by
    simp only [sepList, List.mem_append] at hx
    rcases hx with (hx | hx) | hx
    · exact Or.inr ⟨a, by simp, hx⟩
    · exact Or.inl hx
    · rcases mem_sepList sep (b :: rest) x hx with h | ⟨l, hl, hxl⟩
      · exact Or.inl h
      · exact Or.inr ⟨l, List.mem_cons_of_mem a hl, hxl⟩

/-- Characters of a rendered string array. -/
theorem mem_renderStrArrW (wA wB : Str) (xs : List Str) (x : Char)
    (hx : x ∈ renderStrArrW wA wB xs) :
    x = '[' ∨ x = ']' ∨ x = ',' ∨ x ∈ wA ∨ x ∈ wB
      ∨ ∃ s ∈ xs, x ∈ renderStrJ s := by
  cases xs with
  | nil =>
    simp only [renderStrArrW, List.mem_cons, List.not_mem_nil, or_false] at hx
    tauto
  | cons a as =>
    rw [show renderStrArrW wA wB (a :: as)
      = '[' :: wA ++ sepList (',' :: wA) ((a :: as).map renderStrJ)
          ++ wB ++ [']'] from rfl] at hx
    simp only [List.mem_append, List.mem_cons, List.not_mem_nil,
      or_false] at hx
    rcases hx with (((rfl | hx) | hx) | hx) | rfl
    · tauto
    · tauto
    · rcases mem_sepList _ _ _ hx with hsep | ⟨l, hl, hxl⟩
      · rcases List.mem_cons.mp hsep with rfl | h
        · tauto
        · tauto
      · obtain ⟨s, hs, rfl⟩ := List.mem_map.mp hl
        exact Or.inr (Or.inr (Or.inr (Or.inr (Or.inr ⟨s, hs, hxl⟩))))
    · tauto
    · tauto

/-- A rendered string literal of a string free of braces and `]` is itself
free of braces and `]` apart from nothing: every character differs from
`\x7b`, `\x7d` and `]`. -/
theorem renderStrJ_no_specials {s : Str}
    (h : ∀ c ∈ s, c ≠ '{' ∧ c ≠ '}' ∧ c ≠ ']') :
    ∀ x ∈ renderStrJ s, x ≠ '{' ∧ x ≠ '}' ∧ x ≠ ']' := by
  intro x hx
  have hAset : ∀ y ∈ ("\\\"nrtbfu0123456789abcdef".data),
      y ≠ '{' ∧ y ≠ '}' ∧ y ≠ ']' := by decide
  rcases mem_renderStrJ s x hx with rfl | hx2
  · exact (by decide)
  · rcases mem_escapeStr s x hx2 with hA | hs
    · exact hAset x hA
    · exact h x hs

/-- A rendered string array over brace-free strings contains no braces. -/
theorem renderStrArrW_no_braces {xs : List Str}
    (h : ∀ s ∈ xs, ∀ c ∈ s, c ≠ '{' ∧ c ≠ '}' ∧ c ≠ ']') :
    ∀ x ∈ renderStrArrW [] [] xs, x ≠ '{' ∧ x ≠ '}' := by
  intro x hx
  rcases mem_renderStrArrW [] [] xs x hx with rfl | rfl | rfl | h0 | h0 | hsj
  · exact (by decide)
  · exact (by decide)
  · exact (by decide)
  · cases h0
  · cases h0
  · obtain ⟨s, hs, hxs⟩ := hsj
    obtain ⟨h1, h2, _⟩ := renderStrJ_no_specials (h s hs) x hxs
    exact ⟨h1, h2⟩

/-- No adjacent pair can exist when the second character never occurs. -/
theorem containsPair_false_of_no_p2 (p1 p2 : Char) :
    ∀ (cs : Str), (∀ c ∈ cs, c ≠ p2) → containsPair p1 p2 cs = false
  | [], _ => rfl
  | [_], _ => rfl
  | a :: b :: rest, h => by
    have hb : b ≠ p2 := h b (by simp)
    have ih := containsPair_false_of_no_p2 p1 p2 (b :: rest)
      (fun c hc => h c (List.mem_cons_of_mem a hc))
    rw [show containsPair p1 p2 (a :: b :: rest)
      = ((decide (a = p1) && decide (b = p2)) || containsPair p1 p2 (b :: rest))
      from rfl, ih]
    simp [hb]

/-- Pair-freedom is preserved by append when the seam makes no pair. -/
theorem containsPair_append_false (p1 p2 : Char) :
    ∀ (xs ys : Str), containsPair p1 p2 xs = false →
    containsPair p1 p2 ys = false →
    (xs.getLast? ≠ some p1 ∨ ys.head? ≠ some p2) →
    containsPair p1 p2 (xs ++ ys) = false
  | [], ys, _, hy, _ => hy
  | [a], ys, _, hy, hb => by
    cases ys with
    | nil => rfl
    | cons y ys' =>
      have hbb : (decide (a = p1) && decide (y = p2)) = false := by
        rcases hb with h | h
        · have : a ≠ p1 := fun he => h (by simp [he])
          simp [this]
        · have : y ≠ p2 := fun he => h (by simp [he])
          simp [this]
      rw [List.singleton_append]
      rw [show containsPair p1 p2 (a :: y :: ys')
        = ((decide (a = p1) && decide (y = p2))
            || containsPair p1 p2 (y :: ys')) from rfl]
      rw [hbb, hy, Bool.or_false]
  | a :: b :: xs', ys, hx, hy, hb => by
    rw [show containsPair p1 p2 (a :: b :: xs')
      = ((decide (a = p1) && decide (b = p2))
          || containsPair p1 p2 (b :: xs')) from rfl] at hx
    obtain ⟨hx1, hx2⟩ := Bool.or_eq_false_iff.mp hx
    have hlast : (a :: b :: xs').getLast? = (b :: xs').getLast? :=
      List.getLast?_cons_cons
    have ih := containsPair_append_false p1 p2 (b :: xs') ys hx2 hy
      (by rwa [hlast] at hb)
    rw [show ((a :: b :: xs') ++ ys : Str) = a :: ((b :: xs') ++ ys) from rfl]
    rw [show containsPair p1 p2 (a :: ((b :: xs') ++ ys))
      = ((decide (a = p1) && decide (b = p2))
          || containsPair p1 p2 ((b :: xs') ++ ys)) from rfl]
    rw [hx1, ih, Bool.or_false]

/-- Prepending a character keeps pair-freedom when no seam pair forms. -/
theorem containsPair_cons_false (p1 p2 a : Char) (rest : Str)
    (h1 : containsPair p1 p2 rest = false)
    (h2 : a ≠ p1 ∨ rest.head? ≠ some p2) :
    containsPair p1 p2 (a :: rest) = false := by
  have h2' : ([a] : Str).getLast? ≠ some p1 ∨ rest.head? ≠ some p2 := by
    rcases h2 with h | h
    · exact Or.inl (by simpa using h)
    · exact Or.inr h
  have := containsPair_append_false p1 p2 [a] rest rfl h1 h2'
  simpa using this

/-- The rendered string ends in its closing quote. -/
theorem getLast?_renderStrJ (s : Str) :
    (renderStrJ s).getLast? = some '"' := by
  unfold renderStrJ
  exact getLast?_append_right rfl

/-- A separated list of rendered strings ends in a closing quote. -/
theorem sepList_getLast_quote (sep : Str) :
    ∀ (xs : List Str), xs ≠ [] →
    (sepList sep (xs.map renderStrJ)).getLast? = some '"'
  | [], h => absurd rfl h
  | [x], _ => by
    rw [show sepList sep ([x].map renderStrJ) = renderStrJ x from rfl]
    exact getLast?_renderStrJ x
  | x :: y :: ys, _ => by
    rw [show sepList sep ((x :: y :: ys).map renderStrJ)
      = renderStrJ x ++ sep ++ sepList sep ((y :: ys).map renderStrJ)
      from rfl]
    have ih := sepList_getLast_quote sep (y :: ys) (by simp)
    rw [List.append_assoc]
    exact getLast?_append_right (getLast?_append_right ih)

/-- A compact rendered string array over `]`-free strings contains no
`,]` pair. -/
theorem containsPair_arr_false {xs : List Str}
    (h : ∀ s ∈ xs, ∀ c ∈ s, c ≠ '{' ∧ c ≠ '}' ∧ c ≠ ']') :
    containsPair ',' ']' (renderStrArrW [] [] xs) = false := by
  cases xs with
  | nil => rfl
  | cons a as =>
    have hSL_noR : ∀ c ∈ sepList (',' :: ([] : Str))
        ((a :: as).map renderStrJ), c ≠ ']' := by
      intro c hc
      rcases mem_sepList _ _ _ hc with hsep | ⟨l, hl, hcl⟩
      · simp only [List.mem_cons, List.not_mem_nil, or_false] at hsep
        subst hsep; decide
      · obtain ⟨s, hs, rfl⟩ := List.mem_map.mp hl
        exact (renderStrJ_no_specials (h s hs) c hcl).2.2
    have hSL := containsPair_false_of_no_p2 ',' ']' _ hSL_noR
    have hlast := sepList_getLast_quote (',' :: ([] : Str)) (a :: as) (by simp)
    rw [show renderStrArrW [] [] (a :: as)
      = '[' :: (sepList (',' :: ([] : Str)) ((a :: as).map renderStrJ)
          ++ [']']) from by simp [renderStrArrW]]
    apply containsPair_cons_false
    · apply containsPair_append_false ',' ']' _ ([']'] : Str) hSL rfl
      rw [hlast]
      exact Or.inl (by simp)
    · exact Or.inl (by decide)

/-- `str.replace` is the identity when the pattern does not occur. -/
theorem replace2_no_occ (p1 p2 r1 : Char) :
    ∀ (cs : Str), containsPair p1 p2 cs = false → replace2 p1 p2 r1 cs = cs
  | [], _ => rfl
  | [_], _ => rfl
  | a :: b :: rest, h => by
    rw [show containsPair p1 p2 (a :: b :: rest)
      = ((decide (a = p1) && decide (b = p2))
          || containsPair p1 p2 (b :: rest)) from rfl] at h
    obtain ⟨h1, h2⟩ := Bool.or_eq_false_iff.mp h
    have hfst : ¬(a = p1 ∧ b = p2) := by
      intro ⟨ha, hbb⟩
      simp [ha, hbb] at h1
    conv_lhs => unfold replace2
    rw [if_neg hfst, replace2_no_occ p1 p2 r1 (b :: rest) h2]

/-- Removing the single trailing `,\x7d` pair of a `\x7d`-free body. -/
theorem replace2_comma_rbrace :
    ∀ (cs : Str), (∀ c ∈ cs, c ≠ '}') →
    replace2 ',' '}' '}' (cs ++ [',', '}']) = cs ++ ['}']
  | [], _ => rfl
  | a :: rest, h => by
    cases rest with
    | nil =>
      have hne : ¬(a = ',' ∧ ',' = '}') := by simp
      rw [show (([a] : Str) ++ [',', '}']) = a :: ',' :: '}' :: [] from rfl]
      conv_lhs => unfold replace2
      rw [if_neg hne]
      rfl
    | cons b rest' =>
      have hbne : ¬(a = ',' ∧ b = '}') := by
        intro ⟨_, hb⟩
        exact (h b (by simp)) hb
      rw [show ((a :: b :: rest' : Str) ++ [',', '}'])
        = a :: b :: (rest' ++ [',', '}']) from rfl]
      conv_lhs => unfold replace2
      rw [if_neg hbne]
      rw [show (b :: (rest' ++ [',', '}']) : Str)
        = (b :: rest') ++ [',', '}'] from rfl]
      rw [replace2_comma_rbrace (b :: rest')
        (fun c hc => h c (List.mem_cons_of_mem a hc))]
      rfl

/-- The brace counter walks over a brace-free segment unchanged. -/
theorem braceScan_no_brace :
    ∀ (mid : Str), (∀ c ∈ mid, c ≠ '{' ∧ c ≠ '}') →
    ∀ (cnt : Int) (i : Nat) (rest : Str),
    braceScan cnt i (mid ++ rest) = braceScan cnt (i + mid.length) rest
  | [], _, cnt, i, rest => by simp
  | a :: mid', h, cnt, i, rest => by
    obtain ⟨h1, h2⟩ := h a (by simp)
    rw [show ((a :: mid' : Str) ++ rest) = a :: (mid' ++ rest) from rfl]
    conv_lhs => unfold braceScan
    rw [if_neg h1, if_neg h2]
    rw [braceScan_no_brace mid'
      (fun c hc => h c (List.mem_cons_of_mem a hc)) cnt (i + 1) rest]
    rw [show i + 1 + mid'.length = i + (a :: mid').length from by
      simp [List.length_cons]; omega]

/-- C3: round-trip identity of the backup format.  For every ordered
collection of recipe records and any prior collection value, importing the
exported backup (`json.dumps(..., indent=4, ensure_ascii=False)` then
`json.load`) succeeds and reproduces exactly the encoded ordered record
list. -/
theorem c3_export_import_roundtrip (cur : JValue) (rs : List Recipe) :
    upload_backup cur (export_backup rs) = (encodeRecipes rs, true) := by
  unfold upload_backup
  rw [loads_export rs]


/-- A prefix match fails when the heads differ. -/
theorem startsWithStr_cons_ne (pc c : Char) (p' cs' : Str) (h : ¬ c = pc) :
    startsWithStr (pc :: p') (c :: cs') = false := by
  simp [startsWithStr, List.length_cons, List.take_succ_cons, h]

/-- Fence stripping leaves any text that does not start with a backquote
unchanged. -/
theorem fenceStrip_head_ne (c : Char) (X : Str) (hc : ¬ c = bq) :
    fenceStrip (c :: X) = c :: X := by
  unfold fenceStrip
  rw [show startsWithStr fenceJson (c :: X) = false from
    startsWithStr_cons_ne bq c _ X hc]
  rw [show startsWithStr fence3 (c :: X) = false from
    startsWithStr_cons_ne bq c _ X hc]
  simp

/-- Characters of the serialized recipe body (between the braces) are never
braces, given brace- and bracket-free field strings. -/
theorem recipeBody_no_specials {r : Recipe}
    (hT : ∀ c ∈ r.title, c ≠ '{' ∧ c ≠ '}' ∧ c ≠ ']')
    (hI : ∀ s ∈ r.ingredients, ∀ c ∈ s, c ≠ '{' ∧ c ≠ '}' ∧ c ≠ ']')
    (hS : ∀ s ∈ r.steps, ∀ c ∈ s, c ≠ '{' ∧ c ≠ '}' ∧ c ≠ ']') :
    ∀ c ∈ (renderStrJ ("title".data) ++ (':' :: (renderStrJ r.title ++ (',' :: (renderStrJ ("ingredients".data) ++ (':' :: (renderStrArrW [] [] r.ingredients ++ (',' :: (renderStrJ ("steps".data) ++ (':' :: renderStrArrW [] [] r.steps)))))))))),
    c ≠ '{' ∧ c ≠ '}' := by
  have hkey1 : ∀ x ∈ renderStrJ ("title".data), x ≠ '{' ∧ x ≠ '}' := by decide
  have hkey2 : ∀ x ∈ renderStrJ ("ingredients".data), x ≠ '{' ∧ x ≠ '}' := by
    decide
  have hkey3 : ∀ x ∈ renderStrJ ("steps".data), x ≠ '{' ∧ x ≠ '}' := by decide
  intro c hc
  simp only [List.mem_append, List.mem_cons] at hc
  rcases hc with hc | rfl | hc | rfl | hc | rfl | hc | rfl | hc | rfl | hc
  · exact hkey1 c hc
  · exact (by decide)
  · obtain ⟨x1, x2, _⟩ := renderStrJ_no_specials hT c hc
    exact ⟨x1, x2⟩
  · exact (by decide)
  · exact hkey2 c hc
  · exact (by decide)
  · exact renderStrArrW_no_braces hI c hc
  · exact (by decide)
  · exact hkey3 c hc
  · exact (by decide)
  · exact renderStrArrW_no_braces hS c hc


/-- The malformed serialization splits as body plus trailing `,\x7d`. -/
theorem renderRecipeTC_dec (r : Recipe) :
    renderRecipeTC r
      = ('{' :: (renderStrJ ("title".data) ++ (':' :: (renderStrJ r.title ++ (',' :: (renderStrJ ("ingredients".data) ++ (':' :: (renderStrArrW [] [] r.ingredients ++ (',' :: (renderStrJ ("steps".data) ++ (':' :: renderStrArrW [] [] r.steps))))))))))) ++ [',', '}'] := by
  simp [renderRecipeTC, renderRecipeW]

/-- The compact serialization splits as body plus closing `\x7d`. -/
theorem renderRecipeC_dec (r : Recipe) :
    renderRecipeC r
      = ('{' :: (renderStrJ ("title".data) ++ (':' :: (renderStrJ r.title ++ (',' :: (renderStrJ ("ingredients".data) ++ (':' :: (renderStrArrW [] [] r.ingredients ++ (',' :: (renderStrJ ("steps".data) ++ (':' :: renderStrArrW [] [] r.steps))))))))))) ++ ['}'] := by
  simp [renderRecipeC, renderRecipeW]

/-- The comma repair of the trailing-comma serialization removes exactly the
trailing comma, recovering the compact serialization. -/
theorem commaRepair_renderRecipeTC {r : Recipe}
    (hT : ∀ c ∈ r.title, c ≠ '{' ∧ c ≠ '}' ∧ c ≠ ']')
    (hI : ∀ s ∈ r.ingredients, ∀ c ∈ s, c ≠ '{' ∧ c ≠ '}' ∧ c ≠ ']')
    (hS : ∀ s ∈ r.steps, ∀ c ∈ s, c ≠ '{' ∧ c ≠ '}' ∧ c ≠ ']') :
    commaRepair (renderRecipeTC r) = renderRecipeC r := by
  have hbt := recipeBody_no_specials hT hI hS
  unfold commaRepair
  rw [renderRecipeTC_dec r]
  rw [replace2_comma_rbrace _ (fun c hc => by
    rcases List.mem_cons.mp hc with rfl | h
    · decide
    · exact (hbt c h).2)]
  rw [← renderRecipeC_dec r]
  apply replace2_no_occ
  rw [renderRecipeC_dec r]
  apply containsPair_append_false ',' ']' _ (['}'] : Str) ?_ rfl
    (Or.inr (by decide))
  have c6a : containsPair ',' ']' (renderStrArrW [] [] r.steps) = false :=
    containsPair_arr_false hS
  have c6b : containsPair ',' ']' (':' :: renderStrArrW [] [] r.steps)
      = false := containsPair_cons_false _ _ _ _ c6a (Or.inl (by decide))
  have c5 : containsPair ',' ']'
      (renderStrJ ("steps".data) ++ (':' :: renderStrArrW [] [] r.steps))
      = false := by
    apply containsPair_append_false ',' ']' _ _ (by decide) c6b
    exact Or.inr (by simp)
  have c4b : containsPair ',' ']'
      (',' :: (renderStrJ ("steps".data)
        ++ (':' :: renderStrArrW [] [] r.steps))) = false := by
    apply containsPair_cons_false _ _ _ _ c5
    refine Or.inr ?_
    rw [show (renderStrJ ("steps".data)
      ++ (':' :: renderStrArrW [] [] r.steps)).head? = some '"' from rfl]
    simp
  have c4 : containsPair ',' ']'
      (renderStrArrW [] [] r.ingredients
        ++ (',' :: (renderStrJ ("steps".data)
          ++ (':' :: renderStrArrW [] [] r.steps)))) = false := by
    apply containsPair_append_false ',' ']' _ _
      (containsPair_arr_false hI) c4b
    exact Or.inr (by simp)
  have c3b : containsPair ',' ']'
      (':' :: (renderStrArrW [] [] r.ingredients
        ++ (',' :: (renderStrJ ("steps".data)
          ++ (':' :: renderStrArrW [] [] r.steps))))) = false :=
    containsPair_cons_false _ _ _ _ c4 (Or.inl (by decide))
  have c3 : containsPair ',' ']'
      (renderStrJ ("ingredients".data)
        ++ (':' :: (renderStrArrW [] [] r.ingredients
          ++ (',' :: (renderStrJ ("steps".data)
            ++ (':' :: renderStrArrW [] [] r.steps)))))) = false := by
    apply containsPair_append_false ',' ']' _ _ (by decide) c3b
    exact Or.inr (by simp)
  have c2b : containsPair ',' ']'
      (',' :: (renderStrJ ("ingredients".data)
        ++ (':' :: (renderStrArrW [] [] r.ingredients
          ++ (',' :: (renderStrJ ("steps".data)
            ++ (':' :: renderStrArrW [] [] r.steps))))))) = false := by
    apply containsPair_cons_false _ _ _ _ c3
    refine Or.inr ?_
    rw [show (renderStrJ ("ingredients".data)
      ++ (':' :: (renderStrArrW [] [] r.ingredients
        ++ (',' :: (renderStrJ ("steps".data)
          ++ (':' :: renderStrArrW [] [] r.steps)))))).head? = some '"'
      from rfl]
    simp
  have c2 : containsPair ',' ']'
      (renderStrJ r.title
        ++ (',' :: (renderStrJ ("ingredients".data)
          ++ (':' :: (renderStrArrW [] [] r.ingredients
            ++ (',' :: (renderStrJ ("steps".data)
              ++ (':' :: renderStrArrW [] [] r.steps)))))))) = false := by
    apply containsPair_append_false ',' ']' _ _
      (containsPair_false_of_no_p2 ',' ']' _
        (fun c hc => (renderStrJ_no_specials hT c hc).2.2)) c2b
    exact Or.inr (by simp)
  have c1b : containsPair ',' ']'
      (':' :: (renderStrJ r.title
        ++ (',' :: (renderStrJ ("ingredients".data)
          ++ (':' :: (renderStrArrW [] [] r.ingredients
            ++ (',' :: (renderStrJ ("steps".data)
              ++ (':' :: renderStrArrW [] [] r.steps))))))))) = false :=
    containsPair_cons_false _ _ _ _ c2 (Or.inl (by decide))
  have c1 : containsPair ',' ']' (renderStrJ ("title".data) ++ (':' :: (renderStrJ r.title ++ (',' :: (renderStrJ ("ingredients".data) ++ (':' :: (renderStrArrW [] [] r.ingredients ++ (',' :: (renderStrJ ("steps".data) ++ (':' :: renderStrArrW [] [] r.steps)))))))))) = false := by
    apply containsPair_append_false ',' ']' _ _ (by decide) c1b
    exact Or.inr (by simp)
  exact containsPair_cons_false _ _ _ _ c1 (Or.inl (by decide))


/-- The malformed serialization regrouped for the brace scan: first brace,
brace-free middle, closing brace. -/
theorem renderRecipeTC_dec2 (r : Recipe) :
    renderRecipeTC r
      = '{' :: (((renderStrJ ("title".data) ++ (':' :: (renderStrJ r.title ++ (',' :: (renderStrJ ("ingredients".data) ++ (':' :: (renderStrArrW [] [] r.ingredients ++ (',' :: (renderStrJ ("steps".data) ++ (':' :: renderStrArrW [] [] r.steps)))))))))) ++ [',']) ++ ['}']) := by
  simp [renderRecipeTC, renderRecipeW]

/-- `.strip()` leaves the serialized recipe unchanged. -/
theorem pyStrip_renderRecipeTC (r : Recipe) :
    pyStrip (renderRecipeTC r) = renderRecipeTC r := by
  apply pyStrip_eq_self
  · intro c hcEq
    rw [renderRecipeTC_dec r] at hcEq
    rw [show ((('{' :: (renderStrJ ("title".data) ++ (':' :: (renderStrJ r.title ++ (',' :: (renderStrJ ("ingredients".data) ++ (':' :: (renderStrArrW [] [] r.ingredients ++ (',' :: (renderStrJ ("steps".data) ++ (':' :: renderStrArrW [] [] r.steps))))))))))) ++ [',', '}']).head?) = some '{' from rfl] at hcEq
    cases hcEq
    decide
  · intro c hcEq
    rw [renderRecipeTC_dec r] at hcEq
    rw [getLast?_append_right (show ([',', '}'] : Str).getLast? = some '}'
      from rfl)] at hcEq
    cases hcEq
    decide

/-- Fence stripping leaves the serialized recipe unchanged. -/
theorem fenceStrip_renderRecipeTC (r : Recipe) :
    fenceStrip (renderRecipeTC r) = renderRecipeTC r := by
  rw [renderRecipeTC_dec2 r]
  exact fenceStrip_head_ne _ _ (by decide)

/-- The brace-extraction stage returns the whole malformed serialization:
its only braces are the outermost pair. -/
theorem jsonCandidate_renderRecipeTC {r : Recipe}
    (hT : ∀ c ∈ r.title, c ≠ '{' ∧ c ≠ '}' ∧ c ≠ ']')
    (hI : ∀ s ∈ r.ingredients, ∀ c ∈ s, c ≠ '{' ∧ c ≠ '}' ∧ c ≠ ']')
    (hS : ∀ s ∈ r.steps, ∀ c ∈ s, c ≠ '{' ∧ c ≠ '}' ∧ c ≠ ']') :
    jsonCandidate (renderRecipeTC r) = some (renderRecipeTC r) := by
  have hmid : ∀ c ∈ ((renderStrJ ("title".data) ++ (':' :: (renderStrJ r.title ++ (',' :: (renderStrJ ("ingredients".data) ++ (':' :: (renderStrArrW [] [] r.ingredients ++ (',' :: (renderStrJ ("steps".data) ++ (':' :: renderStrArrW [] [] r.steps)))))))))) ++ [',']),
      c ≠ '{' ∧ c ≠ '}' := by
    intro c hc
    rcases List.mem_append.mp hc with h | h
    · exact recipeBody_no_specials hT hI hS c h
    · simp only [List.mem_cons, List.not_mem_nil, or_false] at h
      subst h
      decide
  have hidx : idxOf '{' (renderRecipeTC r) = some 0 := by
    rw [renderRecipeTC_dec2 r]
    rfl
  have hscan : braceScan 0 0 (renderRecipeTC r)
      = some ((renderRecipeTC r).length) := by
    conv_lhs => rw [renderRecipeTC_dec2 r]
    conv_lhs => unfold braceScan
    rw [if_pos rfl]
    rw [braceScan_no_brace _ hmid ((0 : Int) + 1) (0 + 1) ['}']]
    conv_lhs => unfold braceScan
    rw [if_neg (by decide), if_pos rfl, if_pos (by decide)]
    rw [renderRecipeTC_dec2 r]
    simp only [List.length_cons, List.length_append, List.length_nil]
    rw [Option.some.injEq]
    omega
  have hend : braceEndIdx (renderRecipeTC r) 0 = (renderRecipeTC r).length := by
    unfold braceEndIdx
    rw [List.drop_zero, hscan]
  unfold jsonCandidate
  rw [hidx]
  show some (pySlice (renderRecipeTC r) 0 (braceEndIdx (renderRecipeTC r) 0))
    = some (renderRecipeTC r)
  rw [hend]
  simp [pySlice]


/-- The members of a serialized recipe object with a trailing comma before
the closing brace fail to parse: the comma demands another member. -/
theorem parseMembers_recipe3_tc {wA wC wA2 wB2 : Str}
    (hA : ∀ c ∈ wA, isJsonWs c) (hC : ∀ c ∈ wC, isJsonWs c)
    (hA2 : ∀ c ∈ wA2, isJsonWs c) (hB2 : ∀ c ∈ wB2, isJsonWs c)
    (t : Str) (ing st : List Str) (rest : Str) (F3 : Nat)
    (h2 : ing.length + 1 ≤ F3) (h3 : st.length + 2 ≤ F3) :
    parseMembers (((F3 + 1) + 1) + 1)
        (wA ++ (renderStrJ ("title".data) ++ (':' :: (wC ++ (renderStrJ t ++ (',' :: (wA ++ (renderStrJ ("ingredients".data) ++ (':' :: (wC ++ (renderStrArrW wA2 wB2 ing ++ (',' :: (wA ++ (renderStrJ ("steps".data) ++ (':' :: (wC ++ (renderStrArrW wA2 wB2 st ++ (',' :: ('}' :: rest)))))))))))))))))))
      = none := by
  rw [parseMembers_member_str hA hC ("title".data) t _ ((F3 + 1) + 1)
    (by omega)]
  rw [parseMembers_member_arr hA hC hA2 hB2 ("ingredients".data) ing _
    (F3 + 1) (by omega)]
  rw [parseMembers_member_arr hA hC hA2 hB2 ("steps".data) st _ F3 h3]
  obtain ⟨F4, rfl⟩ : ∃ F4, F3 = F4 + 1 := ⟨F3 - 1, by omega⟩
  rw [parseMembers_rbrace F4 _ rest (skipWs_cons_not _ (by decide))]
  rfl

/-- The strict parse of a recipe serialization with a trailing comma before
the closing brace fails. -/
theorem loads_renderRecipeTC (r : Recipe) :
    loads (renderRecipeTC r) = none := by
  have hdec : renderRecipeTC r
      = '{' :: (([] : Str) ++ (renderStrJ ("title".data) ++ (':' :: (([] : Str) ++ (renderStrJ r.title ++ (',' :: (([] : Str) ++ (renderStrJ ("ingredients".data) ++ (':' :: (([] : Str) ++ (renderStrArrW [] [] r.ingredients ++ (',' :: (([] : Str) ++ (renderStrJ ("steps".data) ++ (':' :: (([] : Str) ++ (renderStrArrW [] [] r.steps ++ (',' :: ('}' :: ([] : Str)))))))))))))))))))) := by
    simp [renderRecipeTC, renderRecipeW]
  have hlen : recipeFuel r ≤ (renderRecipeTC r).length :=
    renderRecipeW_len [] [] [] [] [','] r
  simp only [recipeFuel] at hlen
  obtain ⟨F3, hF3⟩ : ∃ F3, (renderRecipeTC r).length + 1
      = (((F3 + 1) + 1) + 1) + 1 :=
    ⟨(renderRecipeTC r).length - 3, by omega⟩
  have hparse : parseVal ((renderRecipeTC r).length + 1) (renderRecipeTC r)
      = none := by
    rw [hF3]
    have hsk : skipWs (renderRecipeTC r)
        = '{' :: (([] : Str) ++ (renderStrJ ("title".data) ++ (':' :: (([] : Str) ++ (renderStrJ r.title ++ (',' :: (([] : Str) ++ (renderStrJ ("ingredients".data) ++ (':' :: (([] : Str) ++ (renderStrArrW [] [] r.ingredients ++ (',' :: (([] : Str) ++ (renderStrJ ("steps".data) ++ (':' :: (([] : Str) ++ (renderStrArrW [] [] r.steps ++ (',' :: ('}' :: ([] : Str)))))))))))))))))))) := by
      rw [hdec]
      exact skipWs_cons_not _ (by decide)
    rw [parseVal_obj_members (((F3 + 1) + 1) + 1) _ _ _ hsk
      (skipWs_key nil_ws _ _)]
    rw [parseMembers_recipe3_tc nil_ws nil_ws nil_ws nil_ws r.title
      r.ingredients r.steps ([] : Str) F3 (by omega) (by omega)]
    rfl
  conv_lhs => unfold loads
  rw [hparse]

/-- The strict parse of the compact recipe serialization succeeds. -/
theorem loads_renderRecipeC (r : Recipe) :
    loads (renderRecipeC r) = some (encodeRecipe r) := by
  have hlen : recipeFuel r ≤ (renderRecipeC r).length :=
    renderRecipeW_len [] [] [] [] [] r
  simp only [recipeFuel] at hlen
  have h := parseVal_recipeW nil_ws nil_ws nil_ws nil_ws
    nil_ws nil_ws r ([] : Str) ((renderRecipeC r).length + 1) (by omega)
  rw [show (([] : Str) ++ (renderRecipeW [] [] [] [] [] r ++ ([] : Str)))
    = renderRecipeC r from by simp [renderRecipeC]] at h
  conv_lhs => unfold loads
  rw [h]
  rfl


/-- The steps comprehension maps `clean_step_numbering` over string steps. -/
theorem mapM_cleanStep :
    ∀ (xs : List Str),
    (xs.map JValue.str).mapM cleanStepElem
      = some (xs.map (fun s => JValue.str (clean_step_numbering s)))
  | [] => rfl
  | x :: xs' => by
    simp only [List.map_cons, List.mapM_cons, mapM_cleanStep xs',
      cleanStepElem]
    rfl

/-- The post-parse steps rewrite turns an encoded recipe into the cleaned
record. -/
theorem cleanStepsPost_encodeRecipe (r : Recipe) :
    cleanStepsPost (encodeRecipe r) = some (cleanRecipe r) := by
  have hlook : jlookup [(("title".data), JValue.str r.title), (("ingredients".data), JValue.arr (r.ingredients.map JValue.str)), (("steps".data), JValue.arr (r.steps.map JValue.str))] ("steps".data)
      = some (JValue.arr (r.steps.map JValue.str)) := rfl
  show (match jlookup [(("title".data), JValue.str r.title), (("ingredients".data), JValue.arr (r.ingredients.map JValue.str)), (("steps".data), JValue.arr (r.steps.map JValue.str))] ("steps".data) with
    | none => some (encodeRecipe r)
    | some stepsVal =>
      (cleanStepsValue stepsVal).map
        (fun newSteps => JValue.obj
          (jupdate [(("title".data), JValue.str r.title), (("ingredients".data), JValue.arr (r.ingredients.map JValue.str)), (("steps".data), JValue.arr (r.steps.map JValue.str))] ("steps".data) newSteps)))
    = some (cleanRecipe r)
  rw [hlook]
  show ((((r.steps.map JValue.str).mapM cleanStepElem).map JValue.arr).map
      (fun newSteps => JValue.obj
        (jupdate [(("title".data), JValue.str r.title), (("ingredients".data), JValue.arr (r.ingredients.map JValue.str)), (("steps".data), JValue.arr (r.steps.map JValue.str))] ("steps".data) newSteps)))
    = some (cleanRecipe r)
  rw [mapM_cleanStep r.steps]
  rfl

/-- `parse_recipe_json` once the brace-extracted candidate is known. -/
theorem parse_recipe_json_s1 (s jt : Str)
    (h : jsonCandidate (fenceStrip (pyStrip s)) = some jt) :
    parse_recipe_json s
      = match loads jt with
        | some recipe =>
          (match cleanStepsPost recipe with
           | some r => .ok (some r)
           | none => .error ())
        | none =>
          match loads (commaRepair jt) with
          | some recipe =>
            (match cleanStepsPost recipe with
             | some r => .ok (some r)
             | none => .ok none)
          | none => .ok none := by
  conv_lhs => unfold parse_recipe_json
  rw [h]

/-- `parse_recipe_json` through the lenient branch: strict parse fails, the
comma-repaired parse succeeds, post-processing succeeds. -/
theorem parse_recipe_json_lenient (s jt : Str) (v rv : JValue)
    (h : jsonCandidate (fenceStrip (pyStrip s)) = some jt)
    (h1 : loads jt = none) (h2 : loads (commaRepair jt) = some v)
    (h3 : cleanStepsPost v = some rv) :
    parse_recipe_json s = .ok (some rv) := by
  rw [parse_recipe_json_s1 s jt h, h1]
  show (match loads (commaRepair jt) with
    | some recipe =>
      (match cleanStepsPost recipe with
       | some r => Except.ok (some r)
       | none => Except.ok none)
    | none => Except.ok none) = Except.ok (some rv)
  rw [h2]
  show (match cleanStepsPost v with
    | some r => Except.ok (some r)
    | none => Except.ok none) = Except.ok (some rv)
  rw [h3]

/-- C6: for a recipe serialization that is valid JSON except for a trailing
comma before the closing brace — provided its field strings contain no
braces or `]`, so the brace extraction and the comma repair surgery are
exact — the strict parse fails while `parse` succeeds and returns the
cleaned record. -/
theorem c6_trailing_comma_recovery (r : Recipe)
    (hT : ∀ c ∈ r.title, c ≠ '{' ∧ c ≠ '}' ∧ c ≠ ']')
    (hI : ∀ s ∈ r.ingredients, ∀ c ∈ s, c ≠ '{' ∧ c ≠ '}' ∧ c ≠ ']')
    (hS : ∀ s ∈ r.steps, ∀ c ∈ s, c ≠ '{' ∧ c ≠ '}' ∧ c ≠ ']') :
    loads (renderRecipeTC r) = none ∧
    parse_recipe_json (renderRecipeTC r) = .ok (some (cleanRecipe r)) := by
  refine ⟨loads_renderRecipeTC r, ?_⟩
  apply parse_recipe_json_lenient _ (renderRecipeTC r) (encodeRecipe r)
    (cleanRecipe r)
  · rw [pyStrip_renderRecipeTC r, fenceStrip_renderRecipeTC r]
    exact jsonCandidate_renderRecipeTC hT hI hS
  · exact loads_renderRecipeTC r
  · rw [commaRepair_renderRecipeTC hT hI hS]
    exact loads_renderRecipeC r
  · exact cleanStepsPost_encodeRecipe r

/-- Witness for C6 at a concrete recipe. -/
theorem c6_recovery_witness :
    (∀ c ∈ ("Cake".data), c ≠ '{' ∧ c ≠ '}' ∧ c ≠ ']') ∧
    (∀ s ∈ [("milk".data)], ∀ c ∈ s, c ≠ '{' ∧ c ≠ '}' ∧ c ≠ ']') ∧
    (∀ s ∈ [("Mix.".data)], ∀ c ∈ s, c ≠ '{' ∧ c ≠ '}' ∧ c ≠ ']') ∧
    (loads (renderRecipeTC ⟨"Cake".data, [("milk".data)], [("Mix.".data)]⟩)
        = none ∧
     parse_recipe_json
        (renderRecipeTC ⟨"Cake".data, [("milk".data)], [("Mix.".data)]⟩)
        = .ok (some (cleanRecipe
            ⟨"Cake".data, [("milk".data)], [("Mix.".data)]⟩))) :=
  ⟨by decide, by decide, by decide,
   c6_trailing_comma_recovery ⟨"Cake".data, [("milk".data)], [("Mix.".data)]⟩
     (by decide) (by decide) (by decide)⟩

/-- Counterexample to C6 as stated: this input is valid JSON except for one
trailing comma before a closing bracket (the strict parse fails, the
comma-repaired text parses), yet `parse` returns `None`: the brace scan
miscounts the `\x7d` inside the title string and truncates the candidate. -/
theorem c6_brace_in_string_cx :
    loads (("\x7b\"title\": \"a\x7d\", \"ingredients\": [1,]\x7d").data) = none ∧
    loads (commaRepair (("\x7b\"title\": \"a\x7d\", \"ingredients\": [1,]\x7d").data))
      = some (.obj [(("title".data), .str (("a\x7d").data)),
                    (("ingredients".data), .arr [.num ("1".data)])]) ∧
    parse_recipe_json (("\x7b\"title\": \"a\x7d\", \"ingredients\": [1,]\x7d").data)
      = .ok none :=
  ⟨rfl, rfl, rfl⟩

end CookbookApp
